import Mathlib

/-!
# Z80 snapshot reader (`src/zx/z80snapshot.cpp`)

A shallow embedding of the snapshot decoder: `DecompressPage`, `ReadState`
and `zx::ReadZ80Format`.

Conventions of the embedding.

* A byte is a natural number; theorems that depend on the range of a byte
  carry the hypothesis that the bytes are below 256.
* A source pointer (`page`, `z80Snapshot`) is the list of bytes that can be
  read through it.  Reading past the end of that list has no defined result
  in C; the model returns `none` there.
* `DecompressPage` stores bytes through a local copy of `*destMemory` that is
  incremented after every store.  The model returns the stored bytes in
  order; the caller places them at the cursor it passed.
* The local array `tempBuffer` of `ReadZ80Format` has 0x4000 bytes.  A store
  behind its end has no defined result in C; the model returns `none` there.
  `RamBuffer` is declared without a size and is a map from offsets to bytes.
* Loops are run with fuel; lemmas show that the fuel supplied by the
  top-level definitions is never exhausted.
-/

namespace Z80Snapshot

/-! ## DecompressPage -/

/-- Outcome of one pass through the body of the `for` loop of
`DecompressPage`: either the loop goes on at index `i` (the index after the
`i++` of the loop header), or it was left by `break`. In both cases `out` is
the list of bytes stored so far. -/
inductive Step where
  | next (i : Nat) (out : List Nat)
  | stop (out : List Nat)
  deriving DecidableEq, Repr

/-- The test `page[i] == 0x00 && page[i + 1] == 0xED && page[i + 2] == 0xED
&& page[i + 3] == 0x00`, with the short-circuit evaluation of `&&`. -/
def terminatorAt (page : List Nat) (i : Nat) : Option Bool :=
  (page[i]?).bind fun b0 =>
    if b0 = 0x00 then
      (page[i + 1]?).bind fun b1 =>
        if b1 = 0xED then
          (page[i + 2]?).bind fun b2 =>
            if b2 = 0xED then
              (page[i + 3]?).bind fun b3 => some (decide (b3 = 0x00))
            else some false
        else some false
    else some false

/-- The test `isCompressed && page[i] == 0xED && page[i + 1] == 0xED`, with
the short-circuit evaluation of `&&`. -/
def escapeAt (page : List Nat) (isCompressed : Bool) (i : Nat) : Option Bool :=
  if isCompressed then
    (page[i]?).bind fun b0 =>
      if b0 = 0xED then
        (page[i + 1]?).bind fun b1 => some (decide (b1 = 0xED))
      else some false
  else some false

/-- The statements `*memory = page[i]; memory++;` at the end of the loop
body, followed by the `i++` of the loop header. -/
def DecompressPage.literal (page : List Nat) (i : Nat) (memory : List Nat) :
    Option Step :=
  (page[i]?).bind fun b => some (Step.next (i + 1) (memory ++ [b]))

/-- One pass through the body of the `for` loop of `DecompressPage`, entered
with `i < pageLength`. The C test `i < pageLength - 4` is evaluated in `int`,
so it is `i + 4 < pageLength`. In the escape branch `i` is advanced by three
in the body and once more by the loop header. -/
def DecompressPage.body (page : List Nat) (pageLength : Nat) (isCompressed : Bool)
    (i : Nat) (memory : List Nat) : Option Step :=
  if i + 4 < pageLength then
    (terminatorAt page i).bind fun t =>
      if t then some (Step.stop memory)
      else
        (escapeAt page isCompressed i).bind fun e =>
          if e then
            (page[i + 2]?).bind fun rep =>
              (page[i + 3]?).bind fun value =>
                some (Step.next (i + 4) (memory ++ List.replicate rep value))
          else DecompressPage.literal page i memory
  else DecompressPage.literal page i memory

/-- The `for` loop of `DecompressPage`, started at index `i` with the bytes
`memory` already stored. `none` stands for a read outside `page` or for
exhausted fuel. -/
def DecompressPage.loop (page : List Nat) (pageLength : Nat) (isCompressed : Bool) :
    Nat → Nat → List Nat → Option (List Nat)
  | 0, _, _ => none
  | fuel + 1, i, memory =>
    if i < pageLength then
      match DecompressPage.body page pageLength isCompressed i memory with
      | none => none
      | some (Step.stop out) => some out
      | some (Step.next j out) =>
        DecompressPage.loop page pageLength isCompressed fuel j out
    else some memory

/-- The bytes that `DecompressPage(page, pageLength, destMemory, isCompressed)`
stores at `(*destMemory)[0]`, `(*destMemory)[1]`, ... The function works on
a local copy of `*destMemory` and never assigns `*destMemory`, so the cursor
of the caller is the same before and after the call. -/
def DecompressPage (page : List Nat) (pageLength : Nat) (isCompressed : Bool) :
    Option (List Nat) :=
  DecompressPage.loop page pageLength isCompressed (pageLength + 1) 0 []

/-- The states `(i, memory)` in which the body of the `for` loop of
`DecompressPage` is entered, in order. -/
def DecompressPage.trace (page : List Nat) (pageLength : Nat) (isCompressed : Bool) :
    Nat → Nat → List Nat → List (Nat × List Nat)
  | 0, _, _ => []
  | fuel + 1, i, memory =>
    if i < pageLength then
      (i, memory) ::
        match DecompressPage.body page pageLength isCompressed i memory with
        | some (Step.next j out) =>
          DecompressPage.trace page pageLength isCompressed fuel j out
        | _ => []
    else []

/-- The scan of `DecompressPage` arrives at index `i` having stored `out`. -/
def arrivesAt (page : List Nat) (pageLength : Nat) (isCompressed : Bool)
    (i : Nat) (out : List Nat) : Prop :=
  (i, out) ∈ DecompressPage.trace page pageLength isCompressed (pageLength + 1) 0 []

instance (page : List Nat) (pageLength : Nat) (isCompressed : Bool)
    (i : Nat) (out : List Nat) : Decidable (arrivesAt page pageLength isCompressed i out) := by
  unfold arrivesAt; infer_instance

/-! ## The encoder convention

The repository has no encoder. The comment at the head of `z80snapshot.cpp`
describes how blocks are compressed; `compressPage` follows that comment and
is the reference against which the round trip is stated. -/

/-- Number of copies of `b` at the head of a list. -/
def runLength (b : Nat) : List Nat → Nat
  | [] => 0
  | x :: xs => if x = b then runLength b xs + 1 else 0

/-- The encoder of the format comment: a repetition of at least five equal
bytes, or of at least two `ED` bytes, becomes `ED ED xx yy` (with `xx` at
most 255); the byte directly after a single `ED` is not taken into a block.
`afterED` tells that the byte before was a single `ED`. -/
def compressPage.go : Nat → Bool → List Nat → List Nat
  | 0, _, _ => []
  | _, _, [] => []
  | fuel + 1, afterED, b :: rest =>
    let run := min 255 (runLength b rest + 1)
    if afterED = false ∧ (5 ≤ run ∨ (b = 0xED ∧ 2 ≤ run)) then
      [0xED, 0xED, run, b] ++ compressPage.go fuel false (rest.drop (run - 1))
    else b :: compressPage.go fuel (decide (b = 0xED)) rest

/-- Compression of a page after the format comment. -/
def compressPage (page : List Nat) : List Nat :=
  compressPage.go page.length false page

/-! ## FileHeader and ReadState -/

/-- The packed structure `FileHeader` that is laid over the first 34 bytes
of the snapshot. -/
structure FileHeader where
  A : Nat
  F : Nat
  BC : Nat
  HL : Nat
  Version : Nat
  SP : Nat
  InterruptRegister : Nat
  RefreshRegister : Nat
  Flags1 : Nat
  DE : Nat
  BC_Dash : Nat
  DE_Dash : Nat
  HL_Dash : Nat
  A_Dash : Nat
  F_Dash : Nat
  IY : Nat
  IX : Nat
  InterruptFlipFlop : Nat
  IFF2 : Nat
  Flags2 : Nat
  AdditionalBlockLength : Nat
  PC : Nat

/-- A `uint8_t` field at a byte offset inside the snapshot. -/
def byteAt (z80Snapshot : List Nat) (offset : Nat) : Nat :=
  z80Snapshot.getD offset 0

/-- A `uint16_t` field of a packed structure at a byte offset inside the
snapshot, read by a little-endian processor (the note at the cast in
`ReadZ80Format`). -/
def wordAt (z80Snapshot : List Nat) (offset : Nat) : Nat :=
  z80Snapshot.getD offset 0 + 256 * z80Snapshot.getD (offset + 1) 0

/-- The cast `(FileHeader*)z80Snapshot`: every field at the offset the
packed layout gives it. The structure takes 34 bytes; a shorter snapshot
has no header. -/
def FileHeader.overlay (z80Snapshot : List Nat) : Option FileHeader :=
  if 34 ≤ z80Snapshot.length then
    some { A := byteAt z80Snapshot 0
           F := byteAt z80Snapshot 1
           BC := wordAt z80Snapshot 2
           HL := wordAt z80Snapshot 4
           Version := wordAt z80Snapshot 6
           SP := wordAt z80Snapshot 8
           InterruptRegister := byteAt z80Snapshot 10
           RefreshRegister := byteAt z80Snapshot 11
           Flags1 := byteAt z80Snapshot 12
           DE := wordAt z80Snapshot 13
           BC_Dash := wordAt z80Snapshot 15
           DE_Dash := wordAt z80Snapshot 17
           HL_Dash := wordAt z80Snapshot 19
           A_Dash := byteAt z80Snapshot 21
           F_Dash := byteAt z80Snapshot 22
           IY := wordAt z80Snapshot 23
           IX := wordAt z80Snapshot 25
           InterruptFlipFlop := byteAt z80Snapshot 27
           IFF2 := byteAt z80Snapshot 28
           Flags2 := byteAt z80Snapshot 29
           AdditionalBlockLength := wordAt z80Snapshot 30
           PC := wordAt z80Snapshot 32 }
  else none

/-- Modelled from the spec: the type `Z80_STATE` of `zx/z80emu/z80emu.h`,
which is not among the sources. It is the CPU context of the spec, with one
field for every register that `ReadState` assigns: `registers.byte[Z80_A]`
and `[Z80_F]`, `registers.word[Z80_BC]`, `[Z80_HL]`, `[Z80_SP]`, `[Z80_DE]`,
`[Z80_IY]`, `[Z80_IX]`, `alternates[Z80_BC]`, `[Z80_DE]`, `[Z80_HL]`,
`[Z80_AF]`, and `i`, `r`, `im`, `iff1`, `iff2`, `pc`. The alternates hold
16 bits, so the value computed for `alternates[Z80_AF]` is cut to 16 bits;
the other assignments copy a header field of the same width. -/
structure Z80_STATE where
  A : Nat
  F : Nat
  BC : Nat
  HL : Nat
  SP : Nat
  DE : Nat
  IY : Nat
  IX : Nat
  altBC : Nat
  altDE : Nat
  altHL : Nat
  altAF : Nat
  i : Nat
  r : Nat
  im : Nat
  iff1 : Nat
  iff2 : Nat
  pc : Nat

/-- The global objects that the reader writes: `_zxCpu`, `zx::BorderColor`,
`RamBuffer` (an array of unknown size, a map from offsets to bytes) and the
list of buffers handed to `zx::showSinclairScreenshot`, with the contents they
had at the call. -/
structure Globals where
  zxCpu : Z80_STATE
  BorderColor : Nat
  RamBuffer : Nat → Nat
  screenshots : List (Nat → Nat)

/-- The local `borderColor` of `ReadState`: the result of the comparison
`(header->Flags1 & 0x0E) > 1` stored in a `uint8_t`. -/
def borderColor (header : FileHeader) : Nat :=
  if (header.Flags1 &&& 0x0E) > 1 then 1 else 0

/-- The function `ReadState`. `ConvertSinclairColor` is the colour conversion
of the display subsystem, which is not among the sources. -/
def ReadState (ConvertSinclairColor : Nat → Nat) (header : FileHeader)
    (g : Globals) : Globals :=
  { g with
    zxCpu :=
      { A := header.A
        F := header.F
        BC := header.BC
        HL := header.HL
        SP := header.SP
        i := header.InterruptRegister
        r := (header.RefreshRegister &&& 0x7F) ||| ((header.Flags1 &&& 0x01) <<< 7)
        im := header.Flags2 &&& 0x3
        DE := header.DE
        altBC := header.BC_Dash
        altDE := header.DE_Dash
        altHL := header.HL_Dash
        altAF := (header.F_Dash ||| (header.A_Dash <<< 8)) % 65536
        IY := header.IY
        IX := header.IX
        iff1 := header.InterruptFlipFlop
        iff2 := header.IFF2
        pc := header.PC }
    BorderColor := ConvertSinclairColor (borderColor header) }

/-! ## ReadZ80Format -/

/-- The pointer `memory` of `ReadZ80Format`: an offset into the local
`tempBuffer` or into `RamBuffer`. -/
inductive Cursor where
  | temp (offset : Nat)
  | ram (offset : Nat)
  deriving DecidableEq, Repr

/-- The local variables of `ReadZ80Format` and the globals. `buffer` is the
offset of the pointer `buffer` in `z80Snapshot`. `tempBuffer` gives the
bytes of the local array `uint8_t tempBuffer[0x4000]`; only offsets below
0x4000 belong to the array. -/
structure Reader where
  buffer : Nat
  pageSize : Nat
  pageNumber : Nat
  memory : Cursor
  tempBuffer : Nat → Nat
  globals : Globals

/-- The three reads that fetch a block header at offset `buffer`:
`pageSize = *buffer; pageSize |= *buffer << 8; pageNumber = *buffer`, with
`pageSize` a `uint16_t`. -/
def readBlockHeader (z80Snapshot : List Nat) (buffer : Nat) : Option (Nat × Nat) :=
  (z80Snapshot[buffer]?).bind fun lo =>
    (z80Snapshot[buffer + 1]?).bind fun hi =>
      (z80Snapshot[buffer + 2]?).bind fun pageNumber =>
        some ((lo ||| (hi <<< 8)) % 65536, pageNumber)

/-- Stores through an incremented pointer: `bytes` placed at offsets
`start`, `start + 1`, ... of a memory. -/
def store (mem : Nat → Nat) (start : Nat) (bytes : List Nat) : Nat → Nat :=
  fun a => if start ≤ a ∧ a < start + bytes.length then bytes.getD (a - start) 0 else mem a

/-- The `switch (pageNumber)` of `ReadZ80Format`; it has no default case. -/
def ReadZ80Format.selectMemory (pageNumber : Nat) (memory : Cursor) : Cursor :=
  if pageNumber = 8 then Cursor.temp 0
  else if pageNumber = 4 then Cursor.ram (0x8000 - 0x5B00)
  else if pageNumber = 5 then Cursor.ram (0xC000 - 0x5B00)
  else memory

/-- The call of `DecompressPage` in the loop of `ReadZ80Format`: the bytes
stored for the block whose payload starts at `st.buffer`. -/
def ReadZ80Format.decodeBlock (z80Snapshot : List Nat) (st : Reader) :
    Option (List Nat) :=
  if st.pageSize = 0xFFFF then
    DecompressPage (z80Snapshot.drop st.buffer) 0x4000 false
  else
    DecompressPage (z80Snapshot.drop st.buffer) st.pageSize true

/-- The stores of `DecompressPage` stay inside the destination: from a
cursor into `tempBuffer`, which is declared `uint8_t tempBuffer[0x4000]`,
the bytes must end at offset 0x4000 at the latest; `RamBuffer` is declared
without a size. -/
def ReadZ80Format.fits (memory : Cursor) (written : List Nat) : Bool :=
  match memory with
  | Cursor.temp offset => decide (offset + written.length ≤ 0x4000)
  | Cursor.ram _ => true

/-- The body of the `while` loop of `ReadZ80Format` up to and including
`buffer += pageSize`: the switch, the call of `DecompressPage` (whose stores
go to the selected cursor; the cursor itself is not moved by the call), the
screenshot and the `memcpy` for page 8, and the advance of `buffer`. The
code has no capacity check: when the stores run over the end of
`tempBuffer` the behaviour is undefined and the model has no result. -/
def ReadZ80Format.processBlock (z80Snapshot : List Nat) (st : Reader) :
    Option Reader :=
  let memory := ReadZ80Format.selectMemory st.pageNumber st.memory
  (ReadZ80Format.decodeBlock z80Snapshot st).bind fun written =>
    if ReadZ80Format.fits memory written = true then
      let tempBuffer :=
        match memory with
        | Cursor.temp offset => store st.tempBuffer offset written
        | Cursor.ram _ => st.tempBuffer
      let RamBuffer :=
        match memory with
        | Cursor.temp _ => st.globals.RamBuffer
        | Cursor.ram offset => store st.globals.RamBuffer offset written
      let globals : Globals :=
        if st.pageNumber = 8 then
          { st.globals with
            screenshots := st.globals.screenshots ++ [tempBuffer]
            RamBuffer := fun a => if a < 0x2500 then tempBuffer (0x1B00 + a) else RamBuffer a }
        else { st.globals with RamBuffer := RamBuffer }
      some { st with
             memory := memory
             tempBuffer := tempBuffer
             globals := globals
             buffer := st.buffer + st.pageSize }
    else none

/-- The end of the loop body: the header of the next block is read at
`buffer`, which is left pointing behind it. -/
def ReadZ80Format.nextHeader (z80Snapshot : List Nat) (st : Reader) :
    Option Reader :=
  (readBlockHeader z80Snapshot st.buffer).bind fun hd =>
    some { st with buffer := st.buffer + 3, pageSize := hd.1, pageNumber := hd.2 }

/-- The `while (pageSize > 0)` loop. `none` stands for a read outside the
snapshot, a store outside `tempBuffer`, or exhausted fuel. -/
def ReadZ80Format.loop (z80Snapshot : List Nat) : Nat → Reader → Option Reader
  | 0, _ => none
  | fuel + 1, st =>
    if st.pageSize > 0 then
      (ReadZ80Format.processBlock z80Snapshot st).bind fun st1 =>
        (ReadZ80Format.nextHeader z80Snapshot st1).bind fun st2 =>
          ReadZ80Format.loop z80Snapshot fuel st2
    else some st

/-- The part of `ReadZ80Format` before the loop: the header is laid over
the snapshot, `ReadState` is called, the first block header is read at
`0x20 + header->AdditionalBlockLength` and `memory` is set to `RamBuffer`.
`tempBuffer` is the content of the local array, which is not initialised. -/
def ReadZ80Format.enter (ConvertSinclairColor : Nat → Nat) (z80Snapshot : List Nat)
    (g : Globals) (tempBuffer : Nat → Nat) : Option Reader :=
  (FileHeader.overlay z80Snapshot).bind fun header =>
    (ReadZ80Format.nextHeader z80Snapshot
      { buffer := 0x20 + header.AdditionalBlockLength
        pageSize := 0
        pageNumber := 0
        memory := Cursor.ram 0
        tempBuffer := tempBuffer
        globals := ReadState ConvertSinclairColor header g })

/-- The function `zx::ReadZ80Format`: the globals after the call. Every
pass through the loop moves `buffer` forward by at least four bytes, so the
length of the snapshot is enough fuel. -/
def ReadZ80Format (ConvertSinclairColor : Nat → Nat) (z80Snapshot : List Nat)
    (g : Globals) (tempBuffer : Nat → Nat) : Option Globals :=
  (ReadZ80Format.enter ConvertSinclairColor z80Snapshot g tempBuffer).bind fun st0 =>
    (ReadZ80Format.loop z80Snapshot (z80Snapshot.length + 1) st0).map fun st =>
      st.globals

/-- One pass through the body of the `while` loop: the block at `buffer` is
processed and the header of the next block is read. -/
def ReadZ80Format.pass (z80Snapshot : List Nat) (st : Reader) : Option Reader :=
  (ReadZ80Format.processBlock z80Snapshot st).bind fun st1 =>
    ReadZ80Format.nextHeader z80Snapshot st1

/-- The reader after `k` passes through the loop body, each entered with
`pageSize > 0`. -/
def ReadZ80Format.passes (z80Snapshot : List Nat) : Nat → Reader → Option Reader
  | 0, st => some st
  | k + 1, st =>
    if st.pageSize > 0 then
      (ReadZ80Format.pass z80Snapshot st).bind fun st1 =>
        ReadZ80Format.passes z80Snapshot k st1
    else none

/-! ## Snapshots used as concrete inputs -/

/-- Globals before a snapshot is read: all registers and all memory zero. -/
def blankGlobals : Globals :=
  { zxCpu := { A := 0, F := 0, BC := 0, HL := 0, SP := 0, DE := 0, IY := 0, IX := 0,
               altBC := 0, altDE := 0, altHL := 0, altAF := 0, i := 0, r := 0,
               im := 0, iff1 := 0, iff2 := 0, pc := 0 }
    BorderColor := 0
    RamBuffer := fun _ => 0
    screenshots := [] }

/-- A snapshot with a 23-byte additional header, one block for page 8 whose
length field is the sentinel `0xFFFF` and whose payload is 16384 bytes of
value 1, and a closing block header of length zero. -/
def sentinelSnapshot : List Nat :=
  List.replicate 30 0 ++ (23 :: 0 :: (List.replicate 23 0 ++
    (0xFF :: 0xFF :: 8 :: (List.replicate 16384 1 ++ [0, 0, 0]))))

/-- The reader at the payload of the block of `sentinelSnapshot`. -/
def sentinelReader : Reader :=
  { buffer := 58
    pageSize := 0xFFFF
    pageNumber := 8
    memory := Cursor.ram 0
    tempBuffer := fun _ => 0
    globals := ReadState id
      { A := 0, F := 0, BC := 0, HL := 0, Version := 0, SP := 0,
        InterruptRegister := 0, RefreshRegister := 0, Flags1 := 0, DE := 0,
        BC_Dash := 0, DE_Dash := 0, HL_Dash := 0, A_Dash := 0, F_Dash := 0,
        IY := 0, IX := 0, InterruptFlipFlop := 0, IFF2 := 0, Flags2 := 0,
        AdditionalBlockLength := 23, PC := 0 } blankGlobals }

/-- A snapshot with a 2-byte additional header that holds the program
counter 0x1234, followed by a closing block header of length zero. -/
def pcSnapshot : List Nat :=
  List.replicate 30 0 ++ [2, 0, 0x34, 0x12, 0, 0, 0]

/-- A header with every field zero. -/
def zeroHeader : FileHeader :=
  { A := 0, F := 0, BC := 0, HL := 0, Version := 0, SP := 0,
    InterruptRegister := 0, RefreshRegister := 0, Flags1 := 0, DE := 0,
    BC_Dash := 0, DE_Dash := 0, HL_Dash := 0, A_Dash := 0, F_Dash := 0,
    IY := 0, IX := 0, InterruptFlipFlop := 0, IFF2 := 0, Flags2 := 0,
    AdditionalBlockLength := 0, PC := 0 }

/-- A snapshot with two blocks: page 4 with the payload `07 08 09`, then
the unrecognised page id 0 with the payload `01 02`, then a closing header.
The block headers stand at offsets 34, 40 and 45. -/
def overwriteSnapshot : List Nat :=
  List.replicate 30 0 ++
    [2, 0, 0, 0, 3, 0, 4, 7, 8, 9, 2, 0, 0, 1, 2, 0, 0, 0]

/-- A compressed block of `k` escapes `ED ED FF 00` followed by one byte 0;
its length is `4 * k + 1`. -/
def overflowBlock : Nat → List Nat
  | 0 => [0]
  | k + 1 => 0xED :: 0xED :: 0xFF :: 0 :: overflowBlock k

/-- The reader on entry to the loop for `truncatedFile`: at the payload of
the block that declares 20 bytes. -/
def truncatedReader : Reader :=
  { buffer := 37
    pageSize := 20
    pageNumber := 4
    memory := Cursor.ram 0
    tempBuffer := fun _ => 0
    globals := ReadState id { zeroHeader with AdditionalBlockLength := 2 } blankGlobals }

/-! ## Reasoning about the scan

`expand` is the decoder written as a recursion over the bytes that are still
to be scanned. It is used in proofs only: `body_spec` shows that one pass
through the loop body preserves `memory ++ expand (bytes from i on)`. -/

/-- List form of the scan, for proofs: with at least five bytes left the
terminator and the escape are looked for, with at most four bytes left
everything is copied. -/
def expand (isCompressed : Bool) : List Nat → List Nat
  | b0 :: b1 :: b2 :: b3 :: b4 :: rest =>
    if b0 = 0x00 ∧ b1 = 0xED ∧ b2 = 0xED ∧ b3 = 0x00 then []
    else if isCompressed = true ∧ b0 = 0xED ∧ b1 = 0xED then
      List.replicate b2 b3 ++ expand isCompressed (b4 :: rest)
    else b0 :: expand isCompressed (b1 :: b2 :: b3 :: b4 :: rest)
  | short => short

/-- The bytes of the block from index `i` on. -/
def remaining (page : List Nat) (pageLength i : Nat) : List Nat :=
  (page.take pageLength).drop i

/-! # Theorems -/

theorem remaining_length (page : List Nat) (pageLength i : Nat)
    (hlen : pageLength ≤ page.length) :
    (remaining page pageLength i).length = pageLength - i := by
  simp [remaining, List.length_drop, List.length_take, Nat.min_eq_left hlen]

theorem remaining_read (page : List Nat) (pageLength i k : Nat)
    (hk : i + k < pageLength) :
    page[i + k]? = (remaining page pageLength i)[k]? := by
  simp [remaining, List.getElem?_drop, List.getElem?_take, hk]

theorem remaining_drop (page : List Nat) (pageLength i k : Nat) :
    remaining page pageLength (i + k) = (remaining page pageLength i).drop k := by
  simp [remaining, List.drop_drop, Nat.add_comm]

theorem remaining_five (page : List Nat) (pageLength i : Nat)
    (hlen : pageLength ≤ page.length) (h4 : i + 4 < pageLength) :
    ∃ b0 b1 b2 b3 b4 rest,
      remaining page pageLength i = b0 :: b1 :: b2 :: b3 :: b4 :: rest := by
  have hL := remaining_length page pageLength i hlen
  match hr : remaining page pageLength i, hL with
  | b0 :: b1 :: b2 :: b3 :: b4 :: rest, _ => exact ⟨_, _, _, _, _, _, rfl⟩
  | [], h => simp at h; omega
  | [_], h => simp at h; omega
  | [_, _], h => simp at h; omega
  | [_, _, _], h => simp at h; omega
  | [_, _, _, _], h => simp at h; omega

/-- The four reads of the lookahead, when five bytes are left. -/
theorem reads_of_remaining (page : List Nat) (pageLength i : Nat)
    (h4 : i + 4 < pageLength) {b0 b1 b2 b3 : Nat} {tl : List Nat}
    (hs : remaining page pageLength i = b0 :: b1 :: b2 :: b3 :: tl) :
    page[i]? = some b0 ∧ page[i + 1]? = some b1 ∧ page[i + 2]? = some b2 ∧
      page[i + 3]? = some b3 := by
  have r0 := remaining_read page pageLength i 0 (by omega)
  have r1 := remaining_read page pageLength i 1 (by omega)
  have r2 := remaining_read page pageLength i 2 (by omega)
  have r3 := remaining_read page pageLength i 3 (by omega)
  rw [hs] at r0 r1 r2 r3
  simp at r0 r1 r2 r3
  exact ⟨r0, r1, r2, r3⟩

/-- One pass through the loop body, with the block inside `page`: either the
scan goes on further right and `memory ++ expand (bytes left)` is unchanged,
or it stops at a terminator and nothing more is to be produced. -/
theorem body_spec (page : List Nat) (pageLength : Nat) (isCompressed : Bool)
    (i : Nat) (memory : List Nat)
    (hlen : pageLength ≤ page.length) (hi : i < pageLength) :
    (∃ j out, DecompressPage.body page pageLength isCompressed i memory
          = some (Step.next j out) ∧ i < j ∧ j ≤ pageLength ∧
        out ++ expand isCompressed (remaining page pageLength j)
          = memory ++ expand isCompressed (remaining page pageLength i)) ∨
    (DecompressPage.body page pageLength isCompressed i memory
          = some (Step.stop memory) ∧
        expand isCompressed (remaining page pageLength i) = []) := by
  by_cases h4 : i + 4 < pageLength
  · obtain ⟨b0, b1, b2, b3, b4, rest, hs⟩ := remaining_five page pageLength i hlen h4
    obtain ⟨r0, r1, r2, r3⟩ := reads_of_remaining page pageLength i h4 hs
    have d1 : remaining page pageLength (i + 1) = b1 :: b2 :: b3 :: b4 :: rest := by
      rw [remaining_drop, hs]; rfl
    have d4 : remaining page pageLength (i + 4) = b4 :: rest := by
      rw [remaining_drop, hs]; rfl
    by_cases ht : b0 = 0x00 ∧ b1 = 0xED ∧ b2 = 0xED ∧ b3 = 0x00
    · right
      have hterm : terminatorAt page i = some true := by
        simp only [terminatorAt, r0, r1, r2, r3, Option.some_bind]
        obtain ⟨h0, h1, h2, h3⟩ := ht
        simp [h0, h1, h2, h3]
      constructor
      · simp [DecompressPage.body, h4, hterm]
      · rw [hs, expand, if_pos ht]
    · left
      have hterm : terminatorAt page i = some false := by
        simp only [terminatorAt, r0, r1, r2, r3, Option.some_bind]
        split_ifs <;> simp_all
      by_cases he : isCompressed = true ∧ b0 = 0xED ∧ b1 = 0xED
      · obtain ⟨hc, h0, h1⟩ := he
        subst hc h0 h1
        refine ⟨i + 4, memory ++ List.replicate b2 b3, ?_, by omega, by omega, ?_⟩
        · simp [DecompressPage.body, h4, hterm, escapeAt, r0, r1, r2, r3]
        · rw [hs, d4, expand, if_neg ht]
          simp
      · have hesc : escapeAt page isCompressed i = some false := by
          simp only [escapeAt, r0, r1, Option.some_bind]
          split_ifs <;> simp_all
        refine ⟨i + 1, memory ++ [b0], ?_, by omega, by omega, ?_⟩
        · simp [DecompressPage.body, h4, hterm, hesc, DecompressPage.literal, r0]
        · rw [hs, d1, expand, if_neg ht, if_neg he]
          simp
  · left
    have hL := remaining_length page pageLength i hlen
    have r0 := remaining_read page pageLength i 0 (by omega)
    have d1 := remaining_drop page pageLength i 1
    refine ⟨i + 1, memory ++ (remaining page pageLength i).take 1, ?_, by omega, by omega, ?_⟩
    · match hr : remaining page pageLength i, hL with
      | [], h => simp at h; omega
      | b :: tl, _ =>
        rw [hr] at r0
        simp at r0
        simp [DecompressPage.body, h4, DecompressPage.literal, r0]
    · rw [d1]
      match hr : remaining page pageLength i, hL with
      | [], h => simp at h; omega
      | [b0], _ => simp [expand]
      | [b0, b1], _ => simp [expand]
      | [b0, b1, b2], _ => simp [expand]
      | [b0, b1, b2, b3], _ => simp [expand]
      | b0 :: b1 :: b2 :: b3 :: b4 :: rest, h => simp at h; omega

/-- The loop, run with enough fuel on a block inside `page`, returns the
bytes already stored followed by the expansion of the bytes left. -/
theorem loop_eq (page : List Nat) (pageLength : Nat) (isCompressed : Bool)
    (hlen : pageLength ≤ page.length) :
    ∀ (fuel i : Nat) (memory : List Nat), i ≤ pageLength → pageLength < fuel + i →
      DecompressPage.loop page pageLength isCompressed fuel i memory
        = some (memory ++ expand isCompressed (remaining page pageLength i)) := by
  intro fuel
  induction fuel with
  | zero => intro i memory h1 h2; omega
  | succ fuel ih =>
    intro i memory h1 h2
    rw [DecompressPage.loop]
    by_cases hi : i < pageLength
    · rw [if_pos hi]
      rcases body_spec page pageLength isCompressed i memory hlen hi with
        ⟨j, out, hb, hij, hj, hinv⟩ | ⟨hb, hnil⟩
      · rw [hb]
        simp only
        rw [ih j out hj (by omega), hinv]
      · rw [hb]
        simp [hnil]
    · rw [if_neg hi]
      have h0 : remaining page pageLength i = [] := by
        apply List.eq_nil_of_length_eq_zero
        rw [remaining_length page pageLength i hlen]
        omega
      simp [h0, expand]

/-- Every state of the trace satisfies the invariant of `body_spec`. -/
theorem trace_spec (page : List Nat) (pageLength : Nat) (isCompressed : Bool)
    (hlen : pageLength ≤ page.length) (i : Nat) (out : List Nat) :
    ∀ (fuel i0 : Nat) (m0 : List Nat),
      (i, out) ∈ DecompressPage.trace page pageLength isCompressed fuel i0 m0 →
      i < pageLength ∧ i0 ≤ i ∧
        out ++ expand isCompressed (remaining page pageLength i)
          = m0 ++ expand isCompressed (remaining page pageLength i0) := by
  intro fuel
  induction fuel with
  | zero => intro i0 m0 h; simp [DecompressPage.trace] at h
  | succ fuel ih =>
    intro i0 m0 h
    rw [DecompressPage.trace] at h
    by_cases hi : i0 < pageLength
    · rw [if_pos hi, List.mem_cons] at h
      rcases h with h | h
      · injection h with e1 e2
        subst e1 e2
        exact ⟨hi, le_refl _, rfl⟩
      · rcases body_spec page pageLength isCompressed i0 m0 hlen hi with
          ⟨j, o, hb, hij, hj, hinv⟩ | ⟨hb, hnil⟩
        · rw [hb] at h
          obtain ⟨a, b, c⟩ := ih j o h
          exact ⟨a, by omega, by rw [c, hinv]⟩
        · rw [hb] at h
          simp at h
    · rw [if_neg hi] at h
      simp at h

/-- On a block inside `page` the decoder returns, and what it returns is the
expansion of the block. -/
theorem DecompressPage_eq_expand (page : List Nat) (pageLength : Nat)
    (isCompressed : Bool) (hlen : pageLength ≤ page.length) :
    DecompressPage page pageLength isCompressed
      = some (expand isCompressed (page.take pageLength)) := by
  rw [DecompressPage, loop_eq page pageLength isCompressed hlen _ 0 [] (by omega) (by omega)]
  simp [remaining]

/-- When the scan arrives at index `i` having stored `out`, the result of the
decoder is `out` followed by the expansion of the bytes from `i` on. -/
theorem arrivesAt_spec (page : List Nat) (pageLength : Nat) (isCompressed : Bool)
    (hlen : pageLength ≤ page.length) (i : Nat) (out : List Nat)
    (h : arrivesAt page pageLength isCompressed i out) :
    i < pageLength ∧
      DecompressPage page pageLength isCompressed
        = some (out ++ expand isCompressed (remaining page pageLength i)) := by
  obtain ⟨a, _, c⟩ := trace_spec page pageLength isCompressed hlen i out _ 0 [] h
  refine ⟨a, ?_⟩
  rw [DecompressPage_eq_expand page pageLength isCompressed hlen, c]
  simp [remaining]

/-- A whole list as a block: `pageLength` is its length. -/
theorem DecompressPage_block (block : List Nat) (isCompressed : Bool) :
    DecompressPage block block.length isCompressed
      = some (expand isCompressed block) := by
  rw [DecompressPage_eq_expand block block.length isCompressed (le_refl _)]
  simp

theorem expand_short (isCompressed : Bool) (l : List Nat) (h : l.length ≤ 4) :
    expand isCompressed l = l := by
  match l, h with
  | [], _ => simp [expand]
  | [_], _ => simp [expand]
  | [_, _], _ => simp [expand]
  | [_, _, _], _ => simp [expand]
  | [_, _, _, _], _ => simp [expand]
  | _ :: _ :: _ :: _ :: _ :: _, h => simp at h

theorem expand_escape (c v : Nat) (rest : List Nat) (h : rest ≠ []) :
    expand true (0xED :: 0xED :: c :: v :: rest)
      = List.replicate c v ++ expand true rest := by
  match rest, h with
  | b4 :: tl, _ => simp [expand]

theorem expand_terminator (isCompressed : Bool) (rest : List Nat) (h : rest ≠ []) :
    expand isCompressed (0x00 :: 0xED :: 0xED :: 0x00 :: rest) = [] := by
  match rest, h with
  | b4 :: tl, _ => simp [expand]

/-- A byte that starts neither a terminator nor (in compressed mode) an
escape is copied. -/
theorem expand_literal (isCompressed : Bool) (b : Nat) (rest : List Nat)
    (hterm : ¬ ([0x00, 0xED, 0xED, 0x00] <+: b :: rest))
    (hesc : isCompressed = true → ¬ ([0xED, 0xED] <+: b :: rest)) :
    expand isCompressed (b :: rest) = b :: expand isCompressed rest := by
  match rest with
  | [] => simp [expand]
  | [_] => simp [expand]
  | [_, _] => simp [expand]
  | [_, _, _] => simp [expand]
  | b1 :: b2 :: b3 :: b4 :: tl =>
    have ht : ¬ (b = 0x00 ∧ b1 = 0xED ∧ b2 = 0xED ∧ b3 = 0x00) := by
      rintro ⟨h0, h1, h2, h3⟩
      apply hterm
      subst h0 h1 h2 h3
      exact ⟨b4 :: tl, rfl⟩
    have he : ¬ (isCompressed = true ∧ b = 0xED ∧ b1 = 0xED) := by
      rintro ⟨hc, h0, h1⟩
      apply hesc hc
      subst h0 h1
      exact ⟨b2 :: b3 :: b4 :: tl, rfl⟩
    rw [expand, if_neg ht, if_neg he]

theorem read_of_take_eq (page page' : List Nat) (k j : Nat)
    (htake : page.take k = page'.take k) (hj : j < k) :
    page[j]? = page'[j]? := by
  have h := congrArg (fun l => l[j]?) htake
  simpa [List.getElem?_take, hj] using h

/-- The loop body looks at `page[i .. i + 3]` and at the test
`i + 4 < pageLength` only. -/
theorem body_congr (page page' : List Nat) (n n' : Nat) (isCompressed : Bool)
    (i : Nat) (m : List Nat) (h : i + 4 < n) (h' : i + 4 < n')
    (r0 : page[i]? = page'[i]?) (r1 : page[i + 1]? = page'[i + 1]?)
    (r2 : page[i + 2]? = page'[i + 2]?) (r3 : page[i + 3]? = page'[i + 3]?) :
    DecompressPage.body page n isCompressed i m
      = DecompressPage.body page' n' isCompressed i m := by
  simp only [DecompressPage.body, if_pos h, if_pos h', terminatorAt, escapeAt,
    DecompressPage.literal, r0, r1, r2, r3]

/-- Arrival at an index with at least five bytes left depends only on the
bytes before that index and the three after it. -/
theorem trace_congr (page page' : List Nat) (n n' : Nat) (isCompressed : Bool)
    (hlen : n ≤ page.length) (i : Nat) (out : List Nat)
    (hi : i + 4 < n) (hi' : i + 4 < n')
    (htake : page.take (i + 4) = page'.take (i + 4)) :
    ∀ (fuel fuel' i0 : Nat) (m0 : List Nat),
      (i, out) ∈ DecompressPage.trace page n isCompressed fuel i0 m0 →
      i < fuel' + i0 →
      (i, out) ∈ DecompressPage.trace page' n' isCompressed fuel' i0 m0 := by
  intro fuel
  induction fuel with
  | zero => intro fuel' i0 m0 h; simp [DecompressPage.trace] at h
  | succ fuel ih =>
    intro fuel' i0 m0 h hf
    have hle : i0 ≤ i := (trace_spec page n isCompressed hlen i out _ i0 m0 h).2.1
    rw [DecompressPage.trace] at h
    have hi0 : i0 < n := by omega
    rw [if_pos hi0, List.mem_cons] at h
    match fuel', hf with
    | 0, hf => omega
    | f' + 1, hf =>
      rw [DecompressPage.trace, if_pos (by omega : i0 < n'), List.mem_cons]
      rcases h with h | h
      · exact Or.inl h
      · right
        rcases body_spec page n isCompressed i0 m0 hlen hi0 with
          ⟨j, o, hb, hij, hj, _⟩ | ⟨hb, _⟩
        · rw [hb] at h
          have hji : j ≤ i := (trace_spec page n isCompressed hlen i out _ j o h).2.1
          have hb' : DecompressPage.body page' n' isCompressed i0 m0
              = some (Step.next j o) := by
            rw [← hb]
            symm
            apply body_congr page page' n n' isCompressed i0 m0 (by omega) (by omega)
            · exact read_of_take_eq page page' (i + 4) i0 htake (by omega)
            · exact read_of_take_eq page page' (i + 4) (i0 + 1) htake (by omega)
            · exact read_of_take_eq page page' (i + 4) (i0 + 2) htake (by omega)
            · exact read_of_take_eq page page' (i + 4) (i0 + 3) htake (by omega)
          rw [hb']
          exact ih f' j o h (by omega)
        · rw [hb] at h
          simp at h

/-- Bytes that are neither `ED` nor `00`, followed by at most four more
bytes, are copied as they are. -/
theorem expand_plain_then_four (P S : List Nat) (isCompressed : Bool)
    (hP : ∀ b ∈ P, b ≠ 0xED ∧ b ≠ 0x00) (hS : S.length ≤ 4) :
    expand isCompressed (P ++ S) = P ++ S := by
  induction P with
  | nil => exact expand_short isCompressed _ hS
  | cons b P ih =>
    have hb := hP b (List.mem_cons_self b P)
    have hterm : ¬ ([0x00, 0xED, 0xED, 0x00] <+: b :: (P ++ S)) := by
      rintro ⟨t, ht⟩
      simp only [List.cons_append] at ht
      injection ht with e _
      exact hb.2 e.symm
    have hesc : isCompressed = true → ¬ ([0xED, 0xED] <+: b :: (P ++ S)) := by
      rintro _ ⟨t, ht⟩
      simp only [List.cons_append] at ht
      injection ht with e _
      exact hb.1 e.symm
    rw [List.cons_append, expand_literal isCompressed b _ hterm hesc,
      ih (fun x hx => hP x (List.mem_cons_of_mem b hx))]

/-- The scan stops at a terminator that has at least one byte after it. -/
theorem stops_at_terminator (page : List Nat) (pageLength : Nat)
    (isCompressed : Bool) (i : Nat) (out : List Nat)
    (hlen : pageLength ≤ page.length) (hi : i + 5 ≤ pageLength)
    (harr : arrivesAt page pageLength isCompressed i out)
    (h0 : page[i]? = some 0x00) (h1 : page[i + 1]? = some 0xED)
    (h2 : page[i + 2]? = some 0xED) (h3 : page[i + 3]? = some 0x00) :
    DecompressPage page pageLength isCompressed = some out := by
  obtain ⟨_, hres⟩ := arrivesAt_spec page pageLength isCompressed hlen i out harr
  obtain ⟨b0, b1, b2, b3, b4, rest, hs⟩ :=
    remaining_five page pageLength i hlen (by omega)
  obtain ⟨r0, r1, r2, r3⟩ := reads_of_remaining page pageLength i (by omega) hs
  rw [h0] at r0; rw [h1] at r1; rw [h2] at r2; rw [h3] at r3
  injection r0 with e0; injection r1 with e1
  injection r2 with e2; injection r3 with e3
  subst e0 e1 e2 e3
  rw [hres, hs, expand_terminator isCompressed (b4 :: rest) (by simp)]
  simp

/-! ## C1: round trip -/

/-- C1: the page of five zero bytes is compressed, after the format comment,
to `ED ED 05 00`; `DecompressPage`, called in compressed mode with the
compressed length, stores these four bytes unchanged and not the five zero
bytes, so the round trip fails. -/
theorem round_trip_five_zeros :
    compressPage [0, 0, 0, 0, 0] = [0xED, 0xED, 5, 0] ∧
    DecompressPage (compressPage [0, 0, 0, 0, 0])
        (compressPage [0, 0, 0, 0, 0]).length true
      = some [0xED, 0xED, 5, 0] ∧
    DecompressPage (compressPage [0, 0, 0, 0, 0])
        (compressPage [0, 0, 0, 0, 0]).length true
      ≠ some [0, 0, 0, 0, 0] := by
  decide

/-! ## C2: escape expansion -/

/-- C2: in compressed mode an escape `ED ED c v` followed by at least one
more byte produces `v` repeated `c` times and then the output of the rest;
a byte followed by at least four more bytes, where the block begins neither
with `ED ED` nor with `00 ED ED 00`, produces itself and then the output of
the rest. -/
theorem escape_expansion :
    (∀ (c v : Nat) (rest : List Nat), rest ≠ [] → 4 + rest.length ≤ 65535 →
      ∃ out, DecompressPage rest rest.length true = some out ∧
        DecompressPage (0xED :: 0xED :: c :: v :: rest) (4 + rest.length) true
          = some (List.replicate c v ++ out)) ∧
    (∀ (b : Nat) (rest : List Nat), 4 ≤ rest.length → 1 + rest.length ≤ 65535 →
      ¬ ([0xED, 0xED] <+: b :: rest) → ¬ ([0x00, 0xED, 0xED, 0x00] <+: b :: rest) →
      ∃ out, DecompressPage rest rest.length true = some out ∧
        DecompressPage (b :: rest) (1 + rest.length) true = some (b :: out)) := by
  constructor
  · intro c v rest hne _
    refine ⟨expand true rest, DecompressPage_block rest true, ?_⟩
    have h := DecompressPage_block (0xED :: 0xED :: c :: v :: rest) true
    rw [expand_escape c v rest hne] at h
    rw [← h]
    congr 1
    simp only [List.length_cons]
    omega
  · intro b rest _ _ hesc hterm
    refine ⟨expand true rest, DecompressPage_block rest true, ?_⟩
    have h := DecompressPage_block (b :: rest) true
    rw [expand_literal true b rest hterm (fun _ => hesc)] at h
    rw [← h]
    congr 1
    simp only [List.length_cons]
    omega

/-- Witness for C2: an escape followed by two bytes, and a literal followed
by an escape and one byte. -/
theorem escape_expansion_witness :
    (∃ out, DecompressPage [1, 2] 2 true = some out ∧
      DecompressPage [0xED, 0xED, 3, 7, 1, 2] 6 true
        = some (List.replicate 3 7 ++ out)) ∧
    (∃ out, DecompressPage [0xED, 0xED, 2, 5, 9] 5 true = some out ∧
      DecompressPage [1, 0xED, 0xED, 2, 5, 9] 6 true = some (1 :: out)) :=
  ⟨escape_expansion.1 3 7 [1, 2] (by decide) (by decide),
   escape_expansion.2 1 [0xED, 0xED, 2, 5, 9] (by decide) (by decide)
     (by decide) (by decide)⟩

/-! ## C3: early terminator -/

/-- C3: the decoder does not stop at a terminator at index `i = n - 4`. In
the block `00 ED ED 00` of length 4 the scan arrives at index 0 having
stored nothing, the four bytes there are the terminator, and the decoder
stores all four bytes instead of nothing; in the block `01 02 00 ED ED 00`
of length 6 the scan arrives at index 2 having stored `01 02`, and the
decoder stores all six bytes instead of `01 02`. The test
`i < pageLength - 4` leaves out `i = pageLength - 4`, where the four bytes
of the lookahead are still inside the block. -/
theorem terminator_in_last_four_copied :
    arrivesAt [0x00, 0xED, 0xED, 0x00] 4 true 0 [] ∧ 0 ≤ 4 - 4 ∧
    DecompressPage [0x00, 0xED, 0xED, 0x00] 4 true
      = some [0x00, 0xED, 0xED, 0x00] ∧
    DecompressPage [0x00, 0xED, 0xED, 0x00] 4 true ≠ some [] ∧
    arrivesAt [1, 2, 0x00, 0xED, 0xED, 0x00] 6 true 2 [1, 2] ∧ 2 ≤ 6 - 4 ∧
    DecompressPage [1, 2, 0x00, 0xED, 0xED, 0x00] 6 true
      = some [1, 2, 0x00, 0xED, 0xED, 0x00] ∧
    DecompressPage [1, 2, 0x00, 0xED, 0xED, 0x00] 6 true ≠ some [1, 2] := by
  decide

/-- What the code does at the indices where it makes the terminator test:
when the scan arrives at an index `i` with `i ≤ n - 5` having stored `out`,
and the bytes at `i .. i + 3` are `00 ED ED 00`, the decoder returns exactly
`out`; the same holds for every other block that has the same first `i + 4`
bytes, whatever follows them and whatever its declared length (at least
`i + 5`). -/
theorem early_terminator (page : List Nat) (pageLength : Nat)
    (isCompressed : Bool) (i : Nat) (out : List Nat)
    (hlen : pageLength ≤ page.length) (_hmax : pageLength ≤ 65535)
    (hi : i + 5 ≤ pageLength)
    (harr : arrivesAt page pageLength isCompressed i out)
    (h0 : page[i]? = some 0x00) (h1 : page[i + 1]? = some 0xED)
    (h2 : page[i + 2]? = some 0xED) (h3 : page[i + 3]? = some 0x00) :
    DecompressPage page pageLength isCompressed = some out ∧
    ∀ (page' : List Nat) (pageLength' : Nat),
      pageLength' ≤ page'.length → i + 5 ≤ pageLength' →
      page'.take (i + 4) = page.take (i + 4) →
      DecompressPage page' pageLength' isCompressed = some out := by
  refine ⟨stops_at_terminator page pageLength isCompressed i out hlen hi harr
    h0 h1 h2 h3, ?_⟩
  intro page' pageLength' hlen' hi' htake
  have harr' : arrivesAt page' pageLength' isCompressed i out :=
    trace_congr page page' pageLength pageLength' isCompressed hlen i out
      (by omega) (by omega) htake.symm _ _ 0 [] harr (by omega)
  apply stops_at_terminator page' pageLength' isCompressed i out hlen' hi' harr'
  · rw [read_of_take_eq page' page (i + 4) i htake (by omega), h0]
  · rw [read_of_take_eq page' page (i + 4) (i + 1) htake (by omega), h1]
  · rw [read_of_take_eq page' page (i + 4) (i + 2) htake (by omega), h2]
  · rw [read_of_take_eq page' page (i + 4) (i + 3) htake (by omega), h3]

/-- An instance of `early_terminator`: an escape, then the terminator at
index 4 with two bytes after it. The output is the expansion of the escape,
also when the two bytes are replaced by three others. -/
theorem early_terminator_witness :
    DecompressPage [0xED, 0xED, 2, 7, 0x00, 0xED, 0xED, 0x00, 1, 2] 10 true
      = some [7, 7] ∧
    DecompressPage [0xED, 0xED, 2, 7, 0x00, 0xED, 0xED, 0x00, 9, 9, 9] 11 true
      = some [7, 7] :=
  have h := early_terminator [0xED, 0xED, 2, 7, 0x00, 0xED, 0xED, 0x00, 1, 2] 10
    true 4 [7, 7] (by decide) (by decide) (by decide) (by decide) (by decide)
    (by decide) (by decide) (by decide)
  ⟨h.1, h.2 [0xED, 0xED, 2, 7, 0x00, 0xED, 0xED, 0x00, 9, 9, 9] 11 (by decide)
    (by decide) (by decide)⟩

/-! ## C4: sentinel blocks -/

/-- C4: a 16384-byte payload that begins with `00 ED ED 00`, passed as a
sentinel block (`pageLength` 0x4000, `isCompressed` false), is not copied:
the decoder stores nothing. -/
theorem uncompressed_terminator_stops_copy :
    (0x00 :: 0xED :: 0xED :: 0x00 :: List.replicate 16380 0xFF).length = 0x4000 ∧
    DecompressPage (0x00 :: 0xED :: 0xED :: 0x00 :: List.replicate 16380 0xFF)
      0x4000 false = some [] := by
  have hl : (0x00 :: 0xED :: 0xED :: 0x00 :: List.replicate 16380 0xFF).length
      = 0x4000 := by
    simp only [List.length_cons, List.length_replicate]
  have hne : List.replicate 16380 0xFF ≠ [] := by
    intro h
    have h' := congrArg List.length h
    simp only [List.length_replicate, List.length_nil] at h'
    omega
  refine ⟨hl, ?_⟩
  rw [DecompressPage_eq_expand _ _ _ (le_of_eq hl.symm),
    List.take_of_length_le (le_of_eq hl), expand_terminator false _ hne]

/-! ## C5: the final four bytes -/

/-- C5, as stated, fails: in the block `ED ED 03 07 09` of length 5, which
has no terminator, the escape at index 0 takes the bytes at indices 0 to 3;
the output `07 07 07 09` does not end with the last four source bytes
`ED 03 07 09`. -/
theorem final_four_taken_by_escape :
    DecompressPage [0xED, 0xED, 3, 7, 9] 5 true = some [7, 7, 7, 9] ∧
    ([0xED, 0xED, 3, 7, 9].drop (5 - 4)) = [0xED, 3, 7, 9] ∧
    ¬ ([0xED, 3, 7, 9] <:+ [7, 7, 7, 9]) := by
  decide

/-- C5, amended: for a compressed block of length `n ≥ 4`, when the scan
arrives at index `n - 4` having stored `out`, the output is `out` followed
by the four bytes at source indices `n - 4 .. n - 1`, unchanged. -/
theorem final_four_literal (page : List Nat) (pageLength : Nat) (out : List Nat)
    (hlen : pageLength ≤ page.length) (h4 : 4 ≤ pageLength)
    (harr : arrivesAt page pageLength true (pageLength - 4) out) :
    ((page.take pageLength).drop (pageLength - 4)).length = 4 ∧
    DecompressPage page pageLength true
      = some (out ++ (page.take pageLength).drop (pageLength - 4)) := by
  have hL := remaining_length page pageLength (pageLength - 4) hlen
  obtain ⟨_, hres⟩ := arrivesAt_spec page pageLength true hlen _ out harr
  rw [expand_short true _ (by omega)] at hres
  exact ⟨by rw [← remaining, hL]; omega, hres⟩

/-- Witness for C5: two literals bring the scan to index 2 of a block of
length 6. -/
theorem final_four_literal_witness :
    DecompressPage [1, 2, 0xED, 0xED, 3, 7] 6 true
      = some ([1, 2] ++ [0xED, 0xED, 3, 7]) :=
  (final_four_literal [1, 2, 0xED, 0xED, 3, 7] 6 [1, 2] (by decide) (by decide)
    (by decide)).2

/-! ## C6: an escape in the last four bytes -/

/-- C6: when the last four bytes of a compressed block begin with `ED ED`
and the scan arrives at index `n - 4`, the four bytes are stored unchanged;
in particular, after bytes `P` that contain neither `ED` nor `00`, the
output on `P ++ [ED, ED, c, v]` is `P ++ [ED, ED, c, v]`. -/
theorem escape_in_last_four_literal :
    (∀ (page out : List Nat) (c v : Nat), 4 ≤ page.length → page.length ≤ 65535 →
      page.drop (page.length - 4) = [0xED, 0xED, c, v] →
      arrivesAt page page.length true (page.length - 4) out →
      DecompressPage page page.length true = some (out ++ [0xED, 0xED, c, v])) ∧
    (∀ (P : List Nat) (c v : Nat), (∀ b ∈ P, b ≠ 0xED ∧ b ≠ 0x00) →
      DecompressPage (P ++ [0xED, 0xED, c, v]) (P.length + 4) true
        = some (P ++ [0xED, 0xED, c, v])) := by
  constructor
  · intro page out c v _ _ hlast harr
    obtain ⟨_, hres⟩ := arrivesAt_spec page page.length true (le_refl _) _ out harr
    rw [remaining, List.take_length, hlast, expand_short true _ (by simp)] at hres
    exact hres
  · intro P c v hP
    have h := DecompressPage_block (P ++ [0xED, 0xED, c, v]) true
    rw [expand_plain_then_four P [0xED, 0xED, c, v] true hP (by simp)] at h
    rw [← h]
    congr 1
    simp

/-- Witness for C6: three ordinary bytes and then `ED ED 05 00`. -/
theorem escape_in_last_four_literal_witness :
    DecompressPage [1, 2, 3, 0xED, 0xED, 5, 0] 7 true
      = some ([1, 2, 3] ++ [0xED, 0xED, 5, 0]) ∧
    DecompressPage ([1, 2, 3] ++ [0xED, 0xED, 5, 0]) ([1, 2, 3].length + 4) true
      = some ([1, 2, 3] ++ [0xED, 0xED, 5, 0]) :=
  ⟨escape_in_last_four_literal.1 [1, 2, 3, 0xED, 0xED, 5, 0] [1, 2, 3] 5 0
      (by decide) (by decide) (by decide) (by decide),
   escape_in_last_four_literal.2 [1, 2, 3] 5 0 (by decide)⟩

/-! ## Memory and byte lemmas -/

theorem store_read (mem : Nat → Nat) (start k : Nat) (bytes : List Nat)
    (hk : k < bytes.length) :
    bytes[k]? = some (store mem start bytes (start + k)) := by
  have h : start ≤ start + k ∧ start + k < start + bytes.length := by omega
  simp [store, h, List.getD_eq_getElem?_getD, List.getElem?_eq_getElem hk]

theorem store_outside (mem : Nat → Nat) (start a : Nat) (bytes : List Nat)
    (ha : a < start ∨ start + bytes.length ≤ a) :
    store mem start bytes a = mem a := by
  have h : ¬ (start ≤ a ∧ a < start + bytes.length) := by omega
  simp [store, h]

theorem getD_lt_256 (z : List Nat) (hbytes : ∀ b ∈ z, b < 256) (k : Nat) :
    z.getD k 0 < 256 := by
  by_cases hk : k < z.length
  · rw [List.getD_eq_getElem z 0 hk]
    exact hbytes _ (List.getElem_mem hk)
  · rw [List.getD_eq_default z 0 (by omega)]
    omega

theorem or_shift8 (lo hi : Nat) (hlo : lo < 256) :
    lo ||| (hi <<< 8) = lo + 256 * hi := by
  have h := Nat.mul_add_lt_is_or (i := 8) (b := lo) (by simpa using hlo) hi
  rw [Nat.shiftLeft_eq, Nat.or_comm, Nat.mul_comm hi, ← h]
  simp [Nat.add_comm]

theorem and_three (x : Nat) : x &&& 0x3 = x % 4 := by
  have h := Nat.and_pow_two_sub_one_eq_mod x 2
  simpa using h

/-! ## C10: header field mapping -/

/-- C10: for a snapshot of at least 34 bytes, `ReadState` sets A and F to
bytes 0 and 1, the register pairs BC, HL, SP, DE, BC', DE', HL', IY, IX to
the little-endian words at offsets 2, 4, 8, 13, 15, 17, 19, 23, 25, I to
byte 10, IFF1 and IFF2 to bytes 27 and 28, the interrupt mode to the low two
bits of byte 29 (at most 3), and AF' to byte 22 plus 256 times byte 21. -/
theorem header_field_mapping (ConvertSinclairColor : Nat → Nat)
    (z : List Nat) (g : Globals)
    (hlen : 34 ≤ z.length) (hbytes : ∀ b ∈ z, b < 256) :
    ∃ header, FileHeader.overlay z = some header ∧
      (ReadState ConvertSinclairColor header g).zxCpu.A = z.getD 0 0 ∧
      (ReadState ConvertSinclairColor header g).zxCpu.F = z.getD 1 0 ∧
      (ReadState ConvertSinclairColor header g).zxCpu.BC
        = z.getD 2 0 + 256 * z.getD 3 0 ∧
      (ReadState ConvertSinclairColor header g).zxCpu.HL
        = z.getD 4 0 + 256 * z.getD 5 0 ∧
      (ReadState ConvertSinclairColor header g).zxCpu.SP
        = z.getD 8 0 + 256 * z.getD 9 0 ∧
      (ReadState ConvertSinclairColor header g).zxCpu.DE
        = z.getD 13 0 + 256 * z.getD 14 0 ∧
      (ReadState ConvertSinclairColor header g).zxCpu.altBC
        = z.getD 15 0 + 256 * z.getD 16 0 ∧
      (ReadState ConvertSinclairColor header g).zxCpu.altDE
        = z.getD 17 0 + 256 * z.getD 18 0 ∧
      (ReadState ConvertSinclairColor header g).zxCpu.altHL
        = z.getD 19 0 + 256 * z.getD 20 0 ∧
      (ReadState ConvertSinclairColor header g).zxCpu.IY
        = z.getD 23 0 + 256 * z.getD 24 0 ∧
      (ReadState ConvertSinclairColor header g).zxCpu.IX
        = z.getD 25 0 + 256 * z.getD 26 0 ∧
      (ReadState ConvertSinclairColor header g).zxCpu.i = z.getD 10 0 ∧
      (ReadState ConvertSinclairColor header g).zxCpu.iff1 = z.getD 27 0 ∧
      (ReadState ConvertSinclairColor header g).zxCpu.iff2 = z.getD 28 0 ∧
      (ReadState ConvertSinclairColor header g).zxCpu.im = z.getD 29 0 % 4 ∧
      (ReadState ConvertSinclairColor header g).zxCpu.im ≤ 3 ∧
      (ReadState ConvertSinclairColor header g).zxCpu.altAF
        = z.getD 22 0 + 256 * z.getD 21 0 := by
  have h21 := getD_lt_256 z hbytes 21
  have h22 := getD_lt_256 z hbytes 22
  refine ⟨_, by rw [FileHeader.overlay, if_pos hlen], ?_⟩
  simp only [ReadState, byteAt, wordAt, and_three, or_shift8 _ _ h22, true_and]
  refine ⟨?_, ?_⟩
  · omega
  · apply Nat.mod_eq_of_lt
    omega

/-- Witness for C10: the 34 bytes 0, 1, ..., 33. -/
theorem header_field_mapping_witness :
    ∃ header, FileHeader.overlay (List.range 34) = some header ∧
      (ReadState id header blankGlobals).zxCpu.A = 0 ∧
      (ReadState id header blankGlobals).zxCpu.BC = 2 + 256 * 3 ∧
      (ReadState id header blankGlobals).zxCpu.im = 29 % 4 ∧
      (ReadState id header blankGlobals).zxCpu.altAF = 22 + 256 * 21 := by
  obtain ⟨header, h, hA, _, hBC, _, _, _, _, _, _, _, _, _, _, _, him, _, hAF⟩ :=
    header_field_mapping id (List.range 34) blankGlobals (by decide) (by decide)
  exact ⟨header, h, hA, hBC, him, hAF⟩

/-! ## Processing a block -/

theorem fits_temp (offset : Nat) (written : List Nat) :
    ReadZ80Format.fits (Cursor.temp offset) written
      = decide (offset + written.length ≤ 0x4000) :=
  rfl

/-- A decoded block whose stores fit into the destination is processed. -/
theorem processBlock_of_fits (z : List Nat) (st : Reader) (written : List Nat)
    (hd : ReadZ80Format.decodeBlock z st = some written)
    (hfit : ReadZ80Format.fits
      (ReadZ80Format.selectMemory st.pageNumber st.memory) written = true) :
    ReadZ80Format.processBlock z st
      = some { st with
          memory := ReadZ80Format.selectMemory st.pageNumber st.memory
          tempBuffer :=
            match ReadZ80Format.selectMemory st.pageNumber st.memory with
            | Cursor.temp offset => store st.tempBuffer offset written
            | Cursor.ram _ => st.tempBuffer
          globals :=
            if st.pageNumber = 8 then
              { st.globals with
                screenshots := st.globals.screenshots ++
                  [match ReadZ80Format.selectMemory st.pageNumber st.memory with
                   | Cursor.temp offset => store st.tempBuffer offset written
                   | Cursor.ram _ => st.tempBuffer]
                RamBuffer := fun a =>
                  if a < 0x2500 then
                    (match ReadZ80Format.selectMemory st.pageNumber st.memory with
                     | Cursor.temp offset => store st.tempBuffer offset written
                     | Cursor.ram _ => st.tempBuffer) (0x1B00 + a)
                  else
                    (match ReadZ80Format.selectMemory st.pageNumber st.memory with
                     | Cursor.temp _ => st.globals.RamBuffer
                     | Cursor.ram offset => store st.globals.RamBuffer offset written) a }
            else
              { st.globals with
                RamBuffer :=
                  match ReadZ80Format.selectMemory st.pageNumber st.memory with
                  | Cursor.temp _ => st.globals.RamBuffer
                  | Cursor.ram offset => store st.globals.RamBuffer offset written }
          buffer := st.buffer + st.pageSize } := by
  rw [ReadZ80Format.processBlock, hd]
  exact if_pos hfit

/-- A block that was processed had been decoded, and its stores fitted. -/
theorem processBlock_inv (z : List Nat) (st st' : Reader)
    (h : ReadZ80Format.processBlock z st = some st') :
    ∃ written, ReadZ80Format.decodeBlock z st = some written ∧
      ReadZ80Format.fits
        (ReadZ80Format.selectMemory st.pageNumber st.memory) written = true := by
  cases hd : ReadZ80Format.decodeBlock z st with
  | none =>
    rw [ReadZ80Format.processBlock, hd] at h
    exact Option.noConfusion h
  | some written =>
    refine ⟨written, rfl, ?_⟩
    by_contra hfit
    rw [ReadZ80Format.processBlock, hd] at h
    have hn : ReadZ80Format.processBlock z st = none := by
      rw [ReadZ80Format.processBlock, hd]
      exact if_neg hfit
    rw [ReadZ80Format.processBlock, hd] at hn
    rw [hn] at h
    exact Option.noConfusion h

/-! ## C8: page routing -/

/-- C8: page id 8 selects the start of the scratch buffer, id 4 selects
main-memory offset 0x2500, id 5 selects main-memory offset 0x6500, whatever
the cursor was before; every other id leaves the cursor as it is; the cursor
is main-memory offset 0 on entry to the loop and is not changed by reading
the next block header; the decoded bytes of a block, when they fit into
the destination (the scratch buffer has 0x4000 bytes), are stored at the
selected cursor, and a block whose bytes do not fit into the scratch buffer
has no defined result; and the id sequence 8, 4, 5 selects scratch, bank 4
and bank 5 from any starting cursor. -/
theorem page_routing :
    (∀ m, ReadZ80Format.selectMemory 8 m = Cursor.temp 0) ∧
    (∀ m, ReadZ80Format.selectMemory 4 m = Cursor.ram 0x2500) ∧
    (∀ m, ReadZ80Format.selectMemory 5 m = Cursor.ram 0x6500) ∧
    (∀ id m, id ≠ 8 → id ≠ 4 → id ≠ 5 → ReadZ80Format.selectMemory id m = m) ∧
    (∀ conv z g temp st, ReadZ80Format.enter conv z g temp = some st →
      st.memory = Cursor.ram 0) ∧
    (∀ z st st', ReadZ80Format.nextHeader z st = some st' → st'.memory = st.memory) ∧
    (∀ z st written, ReadZ80Format.decodeBlock z st = some written →
      ReadZ80Format.fits (ReadZ80Format.selectMemory st.pageNumber st.memory) written
        = true →
      ∃ st', ReadZ80Format.processBlock z st = some st' ∧
        st'.memory = ReadZ80Format.selectMemory st.pageNumber st.memory ∧
        (∀ offset, st'.memory = Cursor.temp offset →
          offset + written.length ≤ 0x4000 ∧ ∀ k < written.length,
            written[k]? = some (st'.tempBuffer (offset + k))) ∧
        (∀ offset, st'.memory = Cursor.ram offset → ∀ k < written.length,
          written[k]? = some (st'.globals.RamBuffer (offset + k)))) ∧
    (∀ z st written offset, ReadZ80Format.decodeBlock z st = some written →
      ReadZ80Format.selectMemory st.pageNumber st.memory = Cursor.temp offset →
      0x4000 < offset + written.length →
      ReadZ80Format.processBlock z st = none) ∧
    (∀ m, [ReadZ80Format.selectMemory 8 m,
           ReadZ80Format.selectMemory 4 (ReadZ80Format.selectMemory 8 m),
           ReadZ80Format.selectMemory 5
             (ReadZ80Format.selectMemory 4 (ReadZ80Format.selectMemory 8 m))]
        = [Cursor.temp 0, Cursor.ram 0x2500, Cursor.ram 0x6500]) := by
  refine ⟨fun _ => rfl, fun _ => rfl, fun _ => rfl, ?_, ?_, ?_, ?_, ?_, fun _ => rfl⟩
  · intro id m h8 h4 h5
    simp [ReadZ80Format.selectMemory, h8, h4, h5]
  · intro conv z g temp st h
    simp only [ReadZ80Format.enter, ReadZ80Format.nextHeader, Option.bind_eq_some] at h
    obtain ⟨header, _, hd, _, hst⟩ := h
    injection hst with hst
    rw [← hst]
  · intro z st st' h
    simp only [ReadZ80Format.nextHeader, Option.bind_eq_some] at h
    obtain ⟨hd, _, hst⟩ := h
    injection hst with hst
    rw [← hst]
  · intro z st written hw hfit
    refine ⟨_, processBlock_of_fits z st written hw hfit, rfl, ?_, ?_⟩
    · intro offset hm
      simp only at hm
      refine ⟨?_, ?_⟩
      · rw [hm] at hfit
        simpa [ReadZ80Format.fits] using hfit
      · intro k hk
        simp only [hm]
        exact store_read _ _ _ _ hk
    · intro offset hm k hk
      simp only at hm
      have h8 : st.pageNumber ≠ 8 := by
        intro h8
        rw [h8] at hm
        exact Cursor.noConfusion hm
      simp only [hm, if_neg h8]
      exact store_read _ _ _ _ hk
  · intro z st written offset hw hm hover
    have hfit : ¬ (ReadZ80Format.fits
        (ReadZ80Format.selectMemory st.pageNumber st.memory) written = true) := by
      rw [hm]
      simp only [ReadZ80Format.fits, decide_eq_true_eq]
      omega
    rw [ReadZ80Format.processBlock, hw]
    exact if_neg hfit

/-- Witness for C8: a block of three literal bytes, followed by a closing
header, once for page 4 and once for page 8. -/
theorem page_routing_witness :
    (∃ st', ReadZ80Format.processBlock [3, 0, 4, 7, 8, 9, 0, 0, 0]
        { sentinelReader with buffer := 3, pageSize := 3, pageNumber := 4 } = some st' ∧
      st'.memory = Cursor.ram 0x2500 ∧
      (∀ offset, st'.memory = Cursor.temp offset →
        offset + [7, 8, 9].length ≤ 0x4000 ∧ ∀ k < [7, 8, 9].length,
          [7, 8, 9][k]? = some (st'.tempBuffer (offset + k))) ∧
      (∀ offset, st'.memory = Cursor.ram offset → ∀ k < [7, 8, 9].length,
        [7, 8, 9][k]? = some (st'.globals.RamBuffer (offset + k)))) ∧
    (∃ st', ReadZ80Format.processBlock [3, 0, 8, 7, 8, 9, 0, 0, 0]
        { sentinelReader with buffer := 3, pageSize := 3, pageNumber := 8 } = some st' ∧
      st'.memory = Cursor.temp 0 ∧
      (∀ offset, st'.memory = Cursor.temp offset →
        offset + [7, 8, 9].length ≤ 0x4000 ∧ ∀ k < [7, 8, 9].length,
          [7, 8, 9][k]? = some (st'.tempBuffer (offset + k))) ∧
      (∀ offset, st'.memory = Cursor.ram offset → ∀ k < [7, 8, 9].length,
        [7, 8, 9][k]? = some (st'.globals.RamBuffer (offset + k)))) :=
  ⟨page_routing.2.2.2.2.2.2.1 [3, 0, 4, 7, 8, 9, 0, 0, 0]
      { sentinelReader with buffer := 3, pageSize := 3, pageNumber := 4 } [7, 8, 9]
      (by decide) (by decide),
   page_routing.2.2.2.2.2.2.1 [3, 0, 8, 7, 8, 9, 0, 0, 0]
      { sentinelReader with buffer := 3, pageSize := 3, pageNumber := 8 } [7, 8, 9]
      (by decide) (by decide)⟩

/-! ## The sentinel snapshot -/

theorem sentinelSnapshot_length : sentinelSnapshot.length = 16445 := by
  simp only [sentinelSnapshot, List.length_append, List.length_cons,
    List.length_replicate, List.length_nil]

theorem sentinelSnapshot_payload :
    sentinelSnapshot.drop 58 = List.replicate 16384 1 ++ [0, 0, 0] := by
  rfl

/-- The payload of the sentinel block is copied as it is. -/
theorem sentinelSnapshot_decode :
    ReadZ80Format.decodeBlock sentinelSnapshot sentinelReader
      = some (List.replicate 16384 1) := by
  have hl : (List.replicate 16384 1 ++ [0, 0, 0]).length = 16387 := by
    simp only [List.length_append, List.length_cons, List.length_replicate,
      List.length_nil]
  have htake : (List.replicate 16384 1 ++ [0, 0, 0]).take 0x4000
      = List.replicate 16384 1 := by
    rw [List.take_append_of_le_length (by simp only [List.length_replicate]; omega),
      List.take_of_length_le (by simp only [List.length_replicate]; omega)]
  have hexp : expand false (List.replicate 16384 1) = List.replicate 16384 1 := by
    have h := expand_plain_then_four (List.replicate 16384 1) [] false
      (by intro b hb; rw [List.eq_of_mem_replicate hb]; omega)
      (by simp only [List.length_nil]; omega)
    rw [List.append_nil] at h
    exact h
  rw [ReadZ80Format.decodeBlock,
    if_pos (show sentinelReader.pageSize = 0xFFFF from rfl)]
  show DecompressPage (sentinelSnapshot.drop 58) 0x4000 false = _
  rw [sentinelSnapshot_payload, DecompressPage_eq_expand _ _ _ (by rw [hl]; omega),
    htake, hexp]

/-- The 16384 bytes of the sentinel block fill the scratch buffer exactly. -/
theorem sentinelSnapshot_fits :
    ReadZ80Format.fits
      (ReadZ80Format.selectMemory sentinelReader.pageNumber sentinelReader.memory)
      (List.replicate 16384 1) = true := by
  have hm : ReadZ80Format.selectMemory sentinelReader.pageNumber sentinelReader.memory
      = Cursor.temp 0 := rfl
  rw [hm, fits_temp, List.length_replicate]
  decide

set_option maxRecDepth 4000 in
theorem sentinelSnapshot_enter :
    ReadZ80Format.enter id sentinelSnapshot blankGlobals (fun _ => 0)
      = some sentinelReader := by
  rw [ReadZ80Format.enter, FileHeader.overlay,
    if_pos (by rw [sentinelSnapshot_length]; omega)]
  simp only [Option.some_bind, ReadZ80Format.nextHeader, readBlockHeader,
    ← List.get?_eq_getElem?]
  rfl

set_option maxRecDepth 4000 in
theorem sentinelSnapshot_first_header :
    readBlockHeader sentinelSnapshot (32 + 23) = some (0xFFFF, 8) := by
  simp only [readBlockHeader, ← List.get?_eq_getElem?]
  decide

/-- The closing header of `sentinelSnapshot` stands right behind the 16384
bytes of the payload. -/
theorem sentinelSnapshot_closing_header :
    readBlockHeader sentinelSnapshot (58 + 16384) = some (0, 0) := by
  have hr : ∀ j, sentinelSnapshot[58 + 16384 + j]? = [0, 0, 0][j]? := by
    intro j
    have h := List.getElem?_drop sentinelSnapshot 58 (16384 + j)
    rw [sentinelSnapshot_payload,
      List.getElem?_append_right (by simp only [List.length_replicate]; omega)] at h
    simp only [List.length_replicate, Nat.add_sub_cancel_left] at h
    rw [Nat.add_assoc]
    exact h.symm
  have h0 := hr 0
  have h1 := hr 1
  have h2 := hr 2
  simp only [Nat.add_zero, Nat.add_assoc] at h0 h1 h2
  simp only [readBlockHeader, Nat.add_assoc, h0, h1, h2]
  rfl

/-- After a block has been processed, `buffer` has advanced by `pageSize`. -/
theorem processBlock_buffer (z : List Nat) (st st' : Reader)
    (h : ReadZ80Format.processBlock z st = some st') :
    st'.buffer = st.buffer + st.pageSize := by
  obtain ⟨written, hd, hfit⟩ := processBlock_inv z st st' h
  rw [processBlock_of_fits z st written hd hfit] at h
  injection h with hst
  rw [← hst]

/-- A block is processed whenever its payload can be decoded. -/
theorem processBlock_isSome (z : List Nat) (st : Reader) (written : List Nat)
    (h : ReadZ80Format.decodeBlock z st = some written)
    (hfit : ReadZ80Format.fits
      (ReadZ80Format.selectMemory st.pageNumber st.memory) written = true) :
    ∃ st', ReadZ80Format.processBlock z st = some st' :=
  ⟨_, processBlock_of_fits z st written h hfit⟩

/-! ## C7: block framing -/

/-- C7: in `sentinelSnapshot` the first block header is read at offset
32 + 23 = 55 and the payload of the sentinel block starts at offset 58; after
the block has been processed `buffer` is 58 + 65535 and not 58 + 16384,
where the closing header of length zero stands; the read of the next block
header is outside the snapshot. -/
theorem sentinel_block_framing :
    wordAt sentinelSnapshot 30 = 23 ∧
    readBlockHeader sentinelSnapshot (32 + 23) = some (0xFFFF, 8) ∧
    ReadZ80Format.enter id sentinelSnapshot blankGlobals (fun _ => 0)
      = some sentinelReader ∧
    sentinelReader.buffer = 58 ∧
    (∃ st1, ReadZ80Format.processBlock sentinelSnapshot sentinelReader = some st1 ∧
      st1.buffer = 58 + 65535 ∧
      ReadZ80Format.nextHeader sentinelSnapshot st1 = none) ∧
    readBlockHeader sentinelSnapshot (58 + 16384) = some (0, 0) ∧
    sentinelSnapshot.length = 58 + 16384 + 3 := by
  refine ⟨by decide, sentinelSnapshot_first_header, sentinelSnapshot_enter, rfl, ?_,
    sentinelSnapshot_closing_header, sentinelSnapshot_length⟩
  obtain ⟨st1, h1⟩ := processBlock_isSome sentinelSnapshot sentinelReader _
    sentinelSnapshot_decode sentinelSnapshot_fits
  have hb : st1.buffer = 58 + 65535 := processBlock_buffer _ _ _ h1
  refine ⟨st1, h1, hb, ?_⟩
  have hnone : sentinelSnapshot[58 + 65535]? = none := by
    rw [List.getElem?_eq_none_iff, sentinelSnapshot_length]
    omega
  rw [ReadZ80Format.nextHeader, readBlockHeader, hb, hnone]
  rfl

/-! ## C9: relocation of the display page -/

/-- C9: when a block with page id 8 decodes to 16384 bytes `d`, the block is
processed; the screenshot extractor is called once more, with the scratch
buffer whose first 0x1B00 bytes are `d[0 .. 0x1B00)`; afterwards
`RamBuffer[k] = d[0x1B00 + k]` for every `k < 0x2500`, and `RamBuffer` is
unchanged from offset 0x2500 on. -/
theorem display_page_relocation (z : List Nat) (st : Reader) (d : List Nat)
    (h8 : st.pageNumber = 8)
    (hd : ReadZ80Format.decodeBlock z st = some d)
    (hlen : d.length = 16384) :
    ∃ st' shot, ReadZ80Format.processBlock z st = some st' ∧
      st'.globals.screenshots = st.globals.screenshots ++ [shot] ∧
      (∀ k < 0x1B00, d[k]? = some (shot k)) ∧
      (∀ k < 0x2500, d[0x1B00 + k]? = some (st'.globals.RamBuffer k)) ∧
      (∀ k, 0x2500 ≤ k → st'.globals.RamBuffer k = st.globals.RamBuffer k) := by
  have hfit : ReadZ80Format.fits
      (ReadZ80Format.selectMemory st.pageNumber st.memory) d = true := by
    have hm : ReadZ80Format.selectMemory st.pageNumber st.memory = Cursor.temp 0 := by
      rw [h8]
      rfl
    rw [hm, fits_temp, hlen]
    decide
  refine ⟨_, store st.tempBuffer 0 d, processBlock_of_fits z st d hd hfit,
    ?_, ?_, ?_, ?_⟩
  · simp [h8, ReadZ80Format.selectMemory]
  · intro k hk
    have h := store_read st.tempBuffer 0 k d (by omega)
    rw [Nat.zero_add] at h
    exact h
  · intro k hk
    have h := store_read st.tempBuffer 0 (0x1B00 + k) d (by omega)
    rw [Nat.zero_add] at h
    simp [h8, ReadZ80Format.selectMemory, hk, h]
  · intro k hk
    have hk' : ¬ k < 0x2500 := by omega
    simp [h8, ReadZ80Format.selectMemory, hk']

/-- Witness for C9: the sentinel block of `sentinelSnapshot`, whose payload
is 16384 bytes of value 1. -/
theorem display_page_relocation_witness :
    ∃ st' shot, ReadZ80Format.processBlock sentinelSnapshot sentinelReader = some st' ∧
      st'.globals.screenshots = sentinelReader.globals.screenshots ++ [shot] ∧
      (∀ k < 0x1B00, (List.replicate 16384 1)[k]? = some (shot k)) ∧
      (∀ k < 0x2500,
        (List.replicate 16384 1)[0x1B00 + k]? = some (st'.globals.RamBuffer k)) ∧
      (∀ k, 0x2500 ≤ k →
        st'.globals.RamBuffer k = sentinelReader.globals.RamBuffer k) :=
  display_page_relocation sentinelSnapshot sentinelReader (List.replicate 16384 1)
    rfl sentinelSnapshot_decode (List.length_replicate 16384 1)

/-! ## Fuel of the block loop -/

/-- A block header that was read lies inside the snapshot. -/
theorem nextHeader_buffer (z : List Nat) (st st' : Reader)
    (h : ReadZ80Format.nextHeader z st = some st') :
    st'.buffer = st.buffer + 3 ∧ st'.buffer ≤ z.length := by
  simp only [ReadZ80Format.nextHeader, readBlockHeader, Option.bind_eq_some] at h
  obtain ⟨hd, ⟨lo, _, hi, _, pn, hpn, _⟩, hst⟩ := h
  injection hst with hst
  have hlt : st.buffer + 2 < z.length := by
    by_contra hge
    rw [List.getElem?_eq_none_iff.mpr (by omega)] at hpn
    exact Option.noConfusion hpn
  rw [← hst]
  exact ⟨rfl, by show st.buffer + 3 ≤ z.length; omega⟩

/-- The result of the block loop does not depend on the fuel, once the fuel
covers the bytes of the snapshot behind `buffer`: every pass moves `buffer`
forward by at least three bytes and ends with a read inside the snapshot. -/
theorem readLoop_fuel (z : List Nat) :
    ∀ (fuel fuel' : Nat) (st : Reader), st.buffer ≤ z.length →
      z.length < fuel + st.buffer → z.length < fuel' + st.buffer →
      ReadZ80Format.loop z fuel st = ReadZ80Format.loop z fuel' st := by
  intro fuel
  induction fuel with
  | zero => intro fuel' st h1 h2; omega
  | succ fuel ih =>
    intro fuel' st h1 h2 h3
    match fuel', h3 with
    | 0, h3 => omega
    | f' + 1, h3 =>
      rw [ReadZ80Format.loop, ReadZ80Format.loop]
      by_cases hp : st.pageSize > 0
      · rw [if_pos hp, if_pos hp]
        cases h : ReadZ80Format.processBlock z st with
        | none => rfl
        | some st1 =>
          have hb1 := processBlock_buffer z st st1 h
          simp only [Option.some_bind]
          cases h' : ReadZ80Format.nextHeader z st1 with
          | none => rfl
          | some st2 =>
            obtain ⟨hb2, hle⟩ := nextHeader_buffer z st1 st2 h'
            simp only [Option.some_bind]
            exact ih f' st2 hle (by omega) (by omega)
      · rw [if_neg hp, if_neg hp]

/-- The fuel that `ReadZ80Format` supplies is enough: more fuel gives the
same result. -/
theorem ReadZ80Format_fuel (ConvertSinclairColor : Nat → Nat) (z : List Nat)
    (g : Globals) (tempBuffer : Nat → Nat) (extra : Nat) :
    ReadZ80Format ConvertSinclairColor z g tempBuffer
      = (ReadZ80Format.enter ConvertSinclairColor z g tempBuffer).bind fun st0 =>
          (ReadZ80Format.loop z (z.length + 1 + extra) st0).map fun st => st.globals := by
  rw [ReadZ80Format]
  cases h : ReadZ80Format.enter ConvertSinclairColor z g tempBuffer with
  | none => rfl
  | some st0 =>
    have hle : st0.buffer ≤ z.length := by
      simp only [ReadZ80Format.enter, Option.bind_eq_some] at h
      obtain ⟨header, _, hn⟩ := h
      exact (nextHeader_buffer z _ st0 hn).2
    simp only [Option.some_bind]
    rw [readLoop_fuel z (z.length + 1) (z.length + 1 + extra) st0 hle (by omega)
      (by omega)]

/-! ## C11: the refresh register -/

theorem and_7F (x : Nat) : x &&& 0x7F = x % 128 := by
  have h := Nat.and_pow_two_sub_one_eq_mod x 7
  simpa using h

theorem and_one (x : Nat) : x &&& 0x01 = x % 2 := by
  simp

/-- The expression computed for `_zxCpu.r`, as a sum. -/
theorem refresh_value (refresh flags1 : Nat) :
    (refresh &&& 0x7F) ||| ((flags1 &&& 0x01) <<< 7)
      = refresh % 128 + 128 * (flags1 % 2) := by
  have hlo : refresh % 128 < 2 ^ 7 := by
    norm_num
    exact Nat.mod_lt _ (by omega)
  have h := Nat.mul_add_lt_is_or hlo (flags1 % 2)
  rw [and_7F, and_one, Nat.shiftLeft_eq, Nat.or_comm, Nat.mul_comm (flags1 % 2), ← h]
  simp [Nat.add_comm]

/-- C11: for a snapshot of at least 34 bytes, the refresh register set by
`ReadState` is (byte 11 AND 0x7F) OR ((byte 12 AND 1) shifted left by 7),
that is the low seven bits of byte 11 plus 128 times bit 0 of byte 12; it is
below 256; a snapshot that differs in bit 7 of byte 11 only (same byte 11
modulo 128, same byte 12) gives the same value; and byte 11 = 0x3F with bit 0
of byte 12 set gives 0xBF. -/
theorem refresh_register_derivation (ConvertSinclairColor : Nat → Nat)
    (z : List Nat) (g : Globals) (hlen : 34 ≤ z.length) :
    ∃ header, FileHeader.overlay z = some header ∧
      (ReadState ConvertSinclairColor header g).zxCpu.r
        = (z.getD 11 0 &&& 0x7F) ||| ((z.getD 12 0 &&& 0x01) <<< 7) ∧
      (ReadState ConvertSinclairColor header g).zxCpu.r
        = z.getD 11 0 % 128 + 128 * (z.getD 12 0 % 2) ∧
      (ReadState ConvertSinclairColor header g).zxCpu.r < 256 ∧
      (z.getD 11 0 = 0x3F → z.getD 12 0 % 2 = 1 →
        (ReadState ConvertSinclairColor header g).zxCpu.r = 0xBF) ∧
      (∀ z' : List Nat, 34 ≤ z'.length → z'.getD 12 0 = z.getD 12 0 →
        z'.getD 11 0 % 128 = z.getD 11 0 % 128 →
        ∃ header', FileHeader.overlay z' = some header' ∧
          (ReadState ConvertSinclairColor header' g).zxCpu.r
            = (ReadState ConvertSinclairColor header g).zxCpu.r) := by
  refine ⟨_, by rw [FileHeader.overlay, if_pos hlen], ?_, ?_, ?_, ?_, ?_⟩
  · rfl
  · exact refresh_value _ _
  · show (z.getD 11 0 &&& 0x7F) ||| ((z.getD 12 0 &&& 0x01) <<< 7) < 256
    rw [refresh_value]
    omega
  · intro h11 h12
    show (z.getD 11 0 &&& 0x7F) ||| ((z.getD 12 0 &&& 0x01) <<< 7) = 0xBF
    rw [refresh_value, h11, h12]
  · intro z' hlen' h12 h11
    refine ⟨_, by rw [FileHeader.overlay, if_pos hlen'], ?_⟩
    show (z'.getD 11 0 &&& 0x7F) ||| ((z'.getD 12 0 &&& 0x01) <<< 7)
      = (z.getD 11 0 &&& 0x7F) ||| ((z.getD 12 0 &&& 0x01) <<< 7)
    rw [refresh_value, refresh_value, h11, h12]

/-- Witness for C11: the 34 bytes 0, 1, ..., 33, where byte 11 is 11 and
byte 12 is 12. -/
theorem refresh_register_derivation_witness :
    ∃ header, FileHeader.overlay (List.range 34) = some header ∧
      (ReadState id header blankGlobals).zxCpu.r = 11 % 128 + 128 * (12 % 2) ∧
      (ReadState id header blankGlobals).zxCpu.r < 256 := by
  obtain ⟨header, h, _, hr, hlt, _, _⟩ :=
    refresh_register_derivation id (List.range 34) blankGlobals (by decide)
  exact ⟨header, h, hr, hlt⟩

/-! ## The block loop leaves the CPU state alone -/

theorem processBlock_cpu (z : List Nat) (st st' : Reader)
    (h : ReadZ80Format.processBlock z st = some st') :
    st'.globals.zxCpu = st.globals.zxCpu ∧
      st'.globals.BorderColor = st.globals.BorderColor := by
  obtain ⟨written, hd, hfit⟩ := processBlock_inv z st st' h
  rw [processBlock_of_fits z st written hd hfit] at h
  injection h with hst
  rw [← hst]
  by_cases h8 : st.pageNumber = 8
  · simp [h8]
  · simp [h8]

theorem nextHeader_globals (z : List Nat) (st st' : Reader)
    (h : ReadZ80Format.nextHeader z st = some st') :
    st'.globals = st.globals ∧ st'.tempBuffer = st.tempBuffer ∧
      st'.memory = st.memory := by
  simp only [ReadZ80Format.nextHeader, Option.bind_eq_some] at h
  obtain ⟨hd, _, hst⟩ := h
  injection hst with hst
  rw [← hst]
  exact ⟨rfl, rfl, rfl⟩

theorem readLoop_cpu (z : List Nat) :
    ∀ (fuel : Nat) (st st' : Reader), ReadZ80Format.loop z fuel st = some st' →
      st'.globals.zxCpu = st.globals.zxCpu ∧
        st'.globals.BorderColor = st.globals.BorderColor := by
  intro fuel
  induction fuel with
  | zero => intro st st' h; simp [ReadZ80Format.loop] at h
  | succ fuel ih =>
    intro st st' h
    rw [ReadZ80Format.loop] at h
    by_cases hp : st.pageSize > 0
    · rw [if_pos hp] at h
      simp only [Option.bind_eq_some] at h
      obtain ⟨st1, h1, st2, h2, h3⟩ := h
      obtain ⟨a1, b1⟩ := processBlock_cpu z st st1 h1
      obtain ⟨g2, _, _⟩ := nextHeader_globals z st1 st2 h2
      obtain ⟨a3, b3⟩ := ih st2 st' h3
      rw [a3, b3, g2]
      exact ⟨a1, b1⟩
    · rw [if_neg hp] at h
      injection h with h
      rw [← h]
      exact ⟨rfl, rfl⟩

/-- The state on entry to the loop: the globals are those that `ReadState`
leaves. -/
theorem enter_globals (ConvertSinclairColor : Nat → Nat) (z : List Nat)
    (g : Globals) (tempBuffer : Nat → Nat) (st : Reader)
    (h : ReadZ80Format.enter ConvertSinclairColor z g tempBuffer = some st) :
    ∃ header, FileHeader.overlay z = some header ∧ 34 ≤ z.length ∧
      st.globals = ReadState ConvertSinclairColor header g ∧
      st.buffer = 0x20 + header.AdditionalBlockLength + 3 ∧
      readBlockHeader z (0x20 + header.AdditionalBlockLength)
        = some (st.pageSize, st.pageNumber) := by
  simp only [ReadZ80Format.enter, Option.bind_eq_some] at h
  obtain ⟨header, hov, hn⟩ := h
  have hlen : 34 ≤ z.length := by
    by_contra hc
    rw [FileHeader.overlay, if_neg hc] at hov
    exact Option.noConfusion hov
  simp only [ReadZ80Format.nextHeader, Option.bind_eq_some] at hn
  obtain ⟨hd, hhd, hst⟩ := hn
  injection hst with hst
  refine ⟨header, hov, hlen, ?_, ?_, ?_⟩
  · rw [← hst]
  · rw [← hst]
  · rw [← hst]
    exact hhd

/-! ## C12: the program counter -/

/-- C12, as stated, fails: in `pcSnapshot` the additional-header length is
L = 2, the word at offset 32 + L = 34 is 0, and the program counter that
`ReadZ80Format` loads is 0x1234, the word at offset 32. -/
theorem pc_not_behind_additional_header :
    wordAt pcSnapshot 30 = 2 ∧ wordAt pcSnapshot (32 + 2) = 0 ∧
    wordAt pcSnapshot 32 = 0x1234 ∧
    (ReadZ80Format id pcSnapshot blankGlobals (fun _ => 0)).map
      (fun g => g.zxCpu.pc) = some 0x1234 := by
  decide

/-- C12, amended: whenever `ReadZ80Format` returns, the program counter in
the CPU state is the 16-bit little-endian value at byte offset 32 of the
snapshot, whatever the additional-header length at offset 30 is. -/
theorem program_counter_location (ConvertSinclairColor : Nat → Nat)
    (z : List Nat) (g g' : Globals) (tempBuffer : Nat → Nat)
    (h : ReadZ80Format ConvertSinclairColor z g tempBuffer = some g') :
    g'.zxCpu.pc = z.getD 32 0 + 256 * z.getD 33 0 := by
  simp only [ReadZ80Format, Option.bind_eq_some, Option.map_eq_some'] at h
  obtain ⟨st0, h0, st, hl, hg⟩ := h
  obtain ⟨header, hov, hlen, hg0, _, _⟩ :=
    enter_globals ConvertSinclairColor z g tempBuffer st0 h0
  rw [← hg, (readLoop_cpu z _ st0 st hl).1, hg0]
  rw [FileHeader.overlay, if_pos hlen] at hov
  injection hov with hov
  rw [← hov]
  rfl

/-- Witness for C12: `pcSnapshot`, where L = 2 and the bytes at offsets 32
and 33 are 0x34 and 0x12. -/
theorem program_counter_location_witness :
    ∃ g', ReadZ80Format id pcSnapshot blankGlobals (fun _ => 0) = some g' ∧
      g'.zxCpu.pc = pcSnapshot.getD 32 0 + 256 * pcSnapshot.getD 33 0 := by
  have hsome : (ReadZ80Format id pcSnapshot blankGlobals (fun _ => 0)).isSome = true := by
    decide
  obtain ⟨g', hg'⟩ := Option.isSome_iff_exists.mp hsome
  exact ⟨g', hg', program_counter_location id pcSnapshot blankGlobals g' _ hg'⟩

/-! ## C13: the border colour -/

theorem and_0E (x : Nat) : x &&& 0x0E = 2 * ((x / 2) % 8) := by
  have h15 : x &&& 0x0E = (x % 16) &&& 0x0E := by
    have h : x &&& 15 = x % 16 := Nat.and_pow_two_sub_one_eq_mod x 4
    have e : (0x0E : Nat) = 15 &&& 0x0E := by decide
    calc x &&& 0x0E = x &&& (15 &&& 0x0E) := by rw [← e]
      _ = (x &&& 15) &&& 0x0E := by rw [Nat.and_assoc]
      _ = (x % 16) &&& 0x0E := by rw [h]
  have hsmall : ∀ y < 16, y &&& 0x0E = 2 * ((y / 2) % 8) := by decide
  rw [h15, hsmall (x % 16) (Nat.mod_lt _ (by omega))]
  omega

/-- C13: the value that `ReadState` passes to the colour conversion is the
result of the comparison `(Flags1 & 0x0E) > 1` as 0 or 1; it is 1 exactly
when the 3-bit border field (bits 1 to 3 of `Flags1`) is not zero, so all
seven non-zero border values give 1 and the value is always 0 or 1. -/
theorem border_colour_collapse (ConvertSinclairColor : Nat → Nat)
    (header : FileHeader) (g : Globals) :
    (ReadState ConvertSinclairColor header g).BorderColor
      = ConvertSinclairColor (borderColor header) ∧
    borderColor header = (if (header.Flags1 &&& 0x0E) > 1 then 1 else 0) ∧
    (borderColor header = 1 ↔ (header.Flags1 / 2) % 8 ≠ 0) ∧
    (borderColor header = 0 ↔ (header.Flags1 / 2) % 8 = 0) ∧
    (borderColor header = 0 ∨ borderColor header = 1) ∧
    (∀ b, 1 ≤ b → b ≤ 7 → (header.Flags1 / 2) % 8 = b → borderColor header = 1) := by
  have hb : borderColor header = (if (header.Flags1 &&& 0x0E) > 1 then 1 else 0) := rfl
  have h := and_0E header.Flags1
  have hcases : ((header.Flags1 / 2) % 8 = 0 ∧ borderColor header = 0) ∨
      ((header.Flags1 / 2) % 8 ≠ 0 ∧ borderColor header = 1) := by
    rw [hb, h]
    by_cases hz : (header.Flags1 / 2) % 8 = 0
    · left
      simp [hz]
    · right
      have hgt : 2 * (header.Flags1 / 2 % 8) > 1 := by omega
      simp [hgt, hz]
  refine ⟨rfl, hb, ?_, ?_, ?_, ?_⟩
  · rcases hcases with ⟨a, b⟩ | ⟨a, b⟩ <;> rw [b] <;> simp [a]
  · rcases hcases with ⟨a, b⟩ | ⟨a, b⟩ <;> rw [b] <;> simp [a]
  · rcases hcases with ⟨_, b⟩ | ⟨_, b⟩ <;> simp [b]
  · intro b h1 h7 hbits
    rcases hcases with ⟨a, _⟩ | ⟨_, c⟩
    · omega
    · exact c

/-- Witness for C13: border value 5 (`Flags1 = 0x0A`) is passed on as 1. -/
theorem border_colour_collapse_witness :
    borderColor { zeroHeader with Flags1 := 0x0A } = 1 :=
  (border_colour_collapse id { zeroHeader with Flags1 := 0x0A } blankGlobals).2.2.2.2.2
    5 (by decide) (by decide) (by decide)

/-! ## C14: the destination cursor -/

/-- C14: in `overwriteSnapshot` the first block (page 4) stores the three
bytes `07 08 09` from main-memory offset 0x2500. After the call the cursor
of `ReadZ80Format` is still offset 0x2500, not 0x2503, and the second block
(page id 0) stores `01 02` over the first two bytes: at the end offsets
0x2500 to 0x2504 hold `01 02 09 00 00`. -/
theorem cursor_not_advanced :
    ((ReadZ80Format.enter id overwriteSnapshot blankGlobals (fun _ => 0)).bind
        (ReadZ80Format.decodeBlock overwriteSnapshot)) = some [7, 8, 9] ∧
    ((ReadZ80Format.enter id overwriteSnapshot blankGlobals (fun _ => 0)).bind
        (ReadZ80Format.pass overwriteSnapshot)).map (fun st => st.memory)
      = some (Cursor.ram 0x2500) ∧
    (((ReadZ80Format.enter id overwriteSnapshot blankGlobals (fun _ => 0)).bind
        (ReadZ80Format.pass overwriteSnapshot)).bind
        (ReadZ80Format.decodeBlock overwriteSnapshot)) = some [1, 2] ∧
    (ReadZ80Format id overwriteSnapshot blankGlobals (fun _ => 0)).map
      (fun g => [g.RamBuffer 0x2500, g.RamBuffer 0x2501, g.RamBuffer 0x2502,
        g.RamBuffer 0x2503, g.RamBuffer 0x2504])
      = some [1, 2, 9, 0, 0] := by
  decide

/-! ## C15: the amount of output -/

theorem overflowBlock_length (k : Nat) : (overflowBlock k).length = 4 * k + 1 := by
  induction k with
  | zero => rfl
  | succ k ih =>
    simp only [overflowBlock, List.length_cons, ih]
    omega

theorem overflowBlock_ne_nil (k : Nat) : overflowBlock k ≠ [] := by
  cases k <;> simp [overflowBlock]

theorem expand_overflowBlock (k : Nat) :
    expand true (overflowBlock k) = List.replicate (255 * k + 1) 0 := by
  induction k with
  | zero => rfl
  | succ k ih =>
    rw [overflowBlock, expand_escape 0xFF 0 _ (overflowBlock_ne_nil k), ih,
      List.append_replicate_replicate]
    congr 1
    omega

/-- The output is at most the length of the block plus 251 for every group
of four bytes that lies before the last byte. -/
theorem expand_length_le (isCompressed : Bool) :
    ∀ (m : Nat) (l : List Nat), l.length = m → (∀ b ∈ l, b < 256) →
      (expand isCompressed l).length ≤ m + 251 * ((m - 1) / 4) := by
  intro m
  induction m using Nat.strong_induction_on with
  | _ m ih =>
    intro l hl hb
    match l, hl, hb with
    | b0 :: b1 :: b2 :: b3 :: b4 :: rest, hl, hb =>
      simp only [List.length_cons] at hl
      have h2 : b2 < 256 := hb b2 (by simp)
      rw [expand]
      split_ifs
      · simp
      · have hrec := ih (m - 4) (by omega) (b4 :: rest)
          (by simp only [List.length_cons]; omega)
          (fun b hmem => hb b (by simp only [List.mem_cons] at hmem ⊢; tauto))
        simp only [List.length_append, List.length_replicate]
        omega
      · have hrec := ih (m - 1) (by omega) (b1 :: b2 :: b3 :: b4 :: rest)
          (by simp only [List.length_cons]; omega)
          (fun b hmem => hb b (List.mem_cons_of_mem _ hmem))
        simp only [List.length_cons]
        simp only [List.length_cons] at hrec
        omega
    | [], hl, _ => simp [expand]
    | [_], hl, _ => simp only [List.length_cons, List.length_nil] at hl; simp [expand]; omega
    | [_, _], hl, _ =>
      simp only [List.length_cons, List.length_nil] at hl; simp [expand]; omega
    | [_, _, _], hl, _ =>
      simp only [List.length_cons, List.length_nil] at hl; simp [expand]; omega
    | [_, _, _, _], hl, _ =>
      simp only [List.length_cons, List.length_nil] at hl; simp [expand]; omega

/-- C15, as stated, fails: the compressed block of 65 escapes `ED ED FF 00`
and one more byte has declared length 261; `DecompressPage` returns with
16576 bytes stored, more than 16384. -/
theorem capacity_exceeded_without_check :
    (overflowBlock 65).length = 261 ∧ 261 ≤ 0xFFFE ∧
    DecompressPage (overflowBlock 65) 261 true = some (List.replicate 16576 0) ∧
    16384 < (List.replicate 16576 0).length := by
  refine ⟨overflowBlock_length 65, by omega, ?_, ?_⟩
  · have h := DecompressPage_block (overflowBlock 65) true
    rw [overflowBlock_length, expand_overflowBlock] at h
    exact h
  · rw [List.length_replicate]
    omega

/-- C15, amended: `DecompressPage` makes no capacity check and always
returns; for a block of declared length `n` inside the source, with bytes
below 256, it stores at most `n + 251 * ((n - 1) / 4)` bytes, in either
mode; that is at most 16384 bytes whenever `n ≤ 260`. -/
theorem output_length_bound (page : List Nat) (pageLength : Nat)
    (isCompressed : Bool) (hlen : pageLength ≤ page.length)
    (hmax : pageLength ≤ 0xFFFE) (hbytes : ∀ b ∈ page, b < 256) :
    ∃ out, DecompressPage page pageLength isCompressed = some out ∧
      out.length ≤ pageLength + 251 * ((pageLength - 1) / 4) ∧
      out.length ≤ 0xFFFE + 251 * 16383 ∧
      (pageLength ≤ 260 → out.length ≤ 16384) := by
  have hb : (expand isCompressed (page.take pageLength)).length
      ≤ pageLength + 251 * ((pageLength - 1) / 4) :=
    expand_length_le isCompressed pageLength (page.take pageLength)
      (by rw [List.length_take]; omega)
      (fun b hmem => hbytes b (List.mem_of_mem_take hmem))
  refine ⟨_, DecompressPage_eq_expand page pageLength isCompressed hlen, hb, ?_, ?_⟩
  · omega
  · intro h260
    omega

/-- Witness for C15: a block of 64 escapes and one byte, of length 257. -/
theorem output_length_bound_witness :
    ∃ out, DecompressPage (overflowBlock 64) 257 true = some out ∧
      out.length ≤ 257 + 251 * ((257 - 1) / 4) ∧
      out.length ≤ 0xFFFE + 251 * 16383 ∧
      (257 ≤ 260 → out.length ≤ 16384) :=
  output_length_bound (overflowBlock 64) 257 true
    (by rw [overflowBlock_length]) (by omega)
    (by
      have hall : ∀ k, ∀ b ∈ overflowBlock k, b < 256 := by
        intro k
        induction k with
        | zero => intro b hb; simp [overflowBlock] at hb; omega
        | succ k ih =>
          intro b hb
          simp only [overflowBlock, List.mem_cons] at hb
          rcases hb with h | h | h | h | h
          · omega
          · omega
          · omega
          · omega
          · exact ih b h
      exact hall 64)

/-! ## Passes through the block loop -/

theorem readLoop_succ (z : List Nat) (fuel : Nat) (st : Reader)
    (hp : st.pageSize > 0) :
    ReadZ80Format.loop z (fuel + 1) st
      = (ReadZ80Format.pass z st).bind (ReadZ80Format.loop z fuel) := by
  rw [ReadZ80Format.loop, if_pos hp, ReadZ80Format.pass, Option.bind_assoc]

theorem readLoop_zero_length (z : List Nat) (fuel : Nat) (st : Reader)
    (hp : st.pageSize = 0) :
    ReadZ80Format.loop z (fuel + 1) st = some st := by
  rw [ReadZ80Format.loop, if_neg (by omega)]

/-- After `k` passes the loop goes on from the state reached. -/
theorem readLoop_passes (z : List Nat) :
    ∀ (k fuel : Nat) (st0 stk : Reader), ReadZ80Format.passes z k st0 = some stk →
      ReadZ80Format.loop z (fuel + k) st0 = ReadZ80Format.loop z fuel stk := by
  intro k
  induction k with
  | zero =>
    intro fuel st0 stk h
    simp only [ReadZ80Format.passes] at h
    injection h with h
    rw [h, Nat.add_zero]
  | succ k ih =>
    intro fuel st0 stk h
    rw [ReadZ80Format.passes] at h
    by_cases hp : st0.pageSize > 0
    · rw [if_pos hp] at h
      simp only [Option.bind_eq_some] at h
      obtain ⟨st1, h1, h2⟩ := h
      rw [← Nat.add_assoc, readLoop_succ z _ st0 hp, h1]
      exact ih fuel st1 stk h2
    · rw [if_neg hp] at h
      exact Option.noConfusion h

/-- The result of `ReadZ80Format` when `k` passes lead from the state on
entry to the state `stk`. -/
theorem ReadZ80Format_passes (ConvertSinclairColor : Nat → Nat) (z : List Nat)
    (g : Globals) (tempBuffer : Nat → Nat) (k : Nat) (st0 stk : Reader)
    (h0 : ReadZ80Format.enter ConvertSinclairColor z g tempBuffer = some st0)
    (hk : ReadZ80Format.passes z k st0 = some stk) :
    ReadZ80Format ConvertSinclairColor z g tempBuffer
      = (ReadZ80Format.loop z (z.length + 1) stk).map fun st => st.globals := by
  rw [ReadZ80Format_fuel ConvertSinclairColor z g tempBuffer k, h0]
  simp only [Option.some_bind]
  rw [readLoop_passes z k (z.length + 1) st0 stk hk]

/-- C17: the ranges [0, 0x2500), [0x2500, 0x6500) and [0x6500, 0xA500) are
pairwise disjoint; pages 4 and 5 are stored from offsets 0x2500 and 0x6500;
and processing a block for page 4 or 5 whose output has at most 16384 bytes
leaves every byte of main memory outside [0x2500, 0x6500), respectively
[0x6500, 0xA500), unchanged. -/
theorem destination_ranges (z : List Nat) (st : Reader) (d : List Nat)
    (hd : ReadZ80Format.decodeBlock z st = some d) (hlen : d.length ≤ 16384) :
    (∀ a : Nat, ¬ (a < 0x2500 ∧ (0x2500 ≤ a ∧ a < 0x6500)) ∧
      ¬ (a < 0x2500 ∧ (0x6500 ≤ a ∧ a < 0xA500)) ∧
      ¬ ((0x2500 ≤ a ∧ a < 0x6500) ∧ (0x6500 ≤ a ∧ a < 0xA500))) ∧
    ReadZ80Format.selectMemory 4 st.memory = Cursor.ram 0x2500 ∧
    ReadZ80Format.selectMemory 5 st.memory = Cursor.ram 0x6500 ∧
    (st.pageNumber = 4 → ∃ st', ReadZ80Format.processBlock z st = some st' ∧
      ∀ a, ¬ (0x2500 ≤ a ∧ a < 0x6500) →
        st'.globals.RamBuffer a = st.globals.RamBuffer a) ∧
    (st.pageNumber = 5 → ∃ st', ReadZ80Format.processBlock z st = some st' ∧
      ∀ a, ¬ (0x6500 ≤ a ∧ a < 0xA500) →
        st'.globals.RamBuffer a = st.globals.RamBuffer a) := by
  refine ⟨fun a => ⟨by omega, by omega, by omega⟩, rfl, rfl, ?_, ?_⟩
  · intro h4
    refine ⟨_, processBlock_of_fits z st d hd (by rw [h4]; rfl), ?_⟩
    intro a ha
    simp only [h4, ReadZ80Format.selectMemory]
    exact store_outside _ _ _ _ (by omega)
  · intro h5
    refine ⟨_, processBlock_of_fits z st d hd (by rw [h5]; rfl), ?_⟩
    intro a ha
    simp only [h5, ReadZ80Format.selectMemory]
    exact store_outside _ _ _ _ (by omega)

/-- Witness for C17: the first block of `overwriteSnapshot`, for page 4. -/
theorem destination_ranges_witness :
    ∃ st', ReadZ80Format.processBlock overwriteSnapshot
        { truncatedReader with pageSize := 3 } = some st' ∧
      ∀ a, ¬ (0x2500 ≤ a ∧ a < 0x6500) →
        st'.globals.RamBuffer a = truncatedReader.globals.RamBuffer a :=
  (destination_ranges overwriteSnapshot { truncatedReader with pageSize := 3 }
    [7, 8, 9] (by decide) (by decide)).2.2.2.1 rfl

/-! ## C18: a block header of length zero -/

/-- C18: the loop returns at once, with the state unchanged, when the block
header just read has length zero; when `k` passes, each entered with a
positive length, lead from the entry of the loop to a header of length
zero, the result of `ReadZ80Format` is the globals as they were when that
header was read; and when the header at offset 32 + L has length zero, the
result is what `ReadState` left: main memory and the list of screenshots are
those from before the call. -/
theorem zero_length_ends_stream (ConvertSinclairColor : Nat → Nat)
    (z : List Nat) (g : Globals) (tempBuffer : Nat → Nat) :
    (∀ (st : Reader) (fuel : Nat), st.pageSize = 0 →
      ReadZ80Format.loop z (fuel + 1) st = some st) ∧
    (∀ (k : Nat) (st0 stk : Reader),
      ReadZ80Format.enter ConvertSinclairColor z g tempBuffer = some st0 →
      ReadZ80Format.passes z k st0 = some stk → stk.pageSize = 0 →
      ReadZ80Format ConvertSinclairColor z g tempBuffer = some stk.globals) ∧
    (∀ pageNumber : Nat, 34 ≤ z.length →
      readBlockHeader z (32 + wordAt z 30) = some (0, pageNumber) →
      ∃ header, FileHeader.overlay z = some header ∧
        ReadZ80Format ConvertSinclairColor z g tempBuffer
          = some (ReadState ConvertSinclairColor header g) ∧
        (ReadState ConvertSinclairColor header g).RamBuffer = g.RamBuffer ∧
        (ReadState ConvertSinclairColor header g).screenshots = g.screenshots) := by
  refine ⟨fun st fuel hp => readLoop_zero_length z fuel st hp, ?_, ?_⟩
  · intro k st0 stk h0 hk hp
    rw [ReadZ80Format_passes ConvertSinclairColor z g tempBuffer k st0 stk h0 hk,
      readLoop_zero_length z _ stk hp]
    rfl
  · intro pageNumber hlen hhd
    obtain ⟨header, hov, hL⟩ : ∃ header, FileHeader.overlay z = some header ∧
        header.AdditionalBlockLength = wordAt z 30 :=
      ⟨_, by rw [FileHeader.overlay, if_pos hlen], rfl⟩
    refine ⟨header, hov, ?_, rfl, rfl⟩
    have hhd' : readBlockHeader z (0x20 + header.AdditionalBlockLength)
        = some (0, pageNumber) := by
      rw [hL]
      exact hhd
    rw [ReadZ80Format, ReadZ80Format.enter, hov]
    simp only [Option.some_bind, ReadZ80Format.nextHeader, hhd']
    rw [readLoop_zero_length z _ _ rfl]
    rfl

/-- Witness for C18: `pcSnapshot`, whose only block header, at offset 34,
has length zero. -/
theorem zero_length_ends_stream_witness :
    ∃ header, FileHeader.overlay pcSnapshot = some header ∧
      ReadZ80Format id pcSnapshot blankGlobals (fun _ => 0)
        = some (ReadState id header blankGlobals) ∧
      (ReadState id header blankGlobals).RamBuffer = blankGlobals.RamBuffer ∧
      (ReadState id header blankGlobals).screenshots = blankGlobals.screenshots :=
  (zero_length_ends_stream id pcSnapshot blankGlobals (fun _ => 0)).2.2 0
    (by decide) (by decide)

/-! ## C19: uncompressed mode -/

/-- In uncompressed mode the expansion of a list is its part before the
first terminator that has at least one byte behind it, or the whole list. -/
theorem expand_false_spec :
    ∀ l : List Nat, ∃ k, expand false l = l.take k ∧
      ((k + 5 ≤ l.length ∧ [0x00, 0xED, 0xED, 0x00] <+: l.drop k ∧
          ∀ j < k, ¬ ([0x00, 0xED, 0xED, 0x00] <+: l.drop j)) ∨
        (k = l.length ∧
          ∀ j, j + 5 ≤ l.length → ¬ ([0x00, 0xED, 0xED, 0x00] <+: l.drop j))) := by
  intro l
  induction l with
  | nil =>
    refine ⟨0, by simp [expand], Or.inr ⟨rfl, ?_⟩⟩
    intro j hj
    simp at hj
  | cons b tl ih =>
    by_cases hshort : (b :: tl).length ≤ 4
    · refine ⟨(b :: tl).length, ?_, Or.inr ⟨rfl, ?_⟩⟩
      · rw [expand_short false _ hshort, List.take_length]
      · intro j hj
        omega
    · by_cases hT : [0x00, 0xED, 0xED, 0x00] <+: b :: tl
      · obtain ⟨t, ht⟩ := hT
        have hne : t ≠ [] := by
          intro hnil
          rw [hnil] at ht
          rw [← ht] at hshort
          simp at hshort
        refine ⟨0, ?_, Or.inl ⟨by omega, ⟨t, ht⟩, ?_⟩⟩
        · rw [← ht]
          exact expand_terminator false t hne
        · intro j hj
          omega
      · obtain ⟨k, hk, hcase⟩ := ih
        refine ⟨k + 1, ?_, ?_⟩
        · rw [expand_literal false b tl hT (by intro h; exact Bool.noConfusion h), hk,
            List.take_succ_cons]
        · rcases hcase with ⟨h5, hTk, hmin⟩ | ⟨hlen, hnone⟩
          · left
            refine ⟨by simp only [List.length_cons]; omega, hTk, ?_⟩
            intro j hj
            cases j with
            | zero => exact hT
            | succ j => exact hmin j (by omega)
          · right
            refine ⟨by simp only [List.length_cons]; omega, ?_⟩
            intro j hj
            cases j with
            | zero => exact hT
            | succ j =>
              simp only [List.length_cons] at hj
              exact hnone j (by omega)

/-- C19: with `isCompressed` false the output is the source bytes before
index `k`, where `k` is the smallest index `i ≤ n - 5` at which the bytes at
`i .. i + 3` are `00 ED ED 00`, or `k = n` when there is no such index; the
output has at most `n` bytes and is the whole source exactly when there is
no such index. -/
theorem uncompressed_output (page : List Nat) (_hmax : page.length ≤ 65535) :
    ∃ k, DecompressPage page page.length false = some (page.take k) ∧
      ((k + 5 ≤ page.length ∧ [0x00, 0xED, 0xED, 0x00] <+: page.drop k ∧
          ∀ j < k, ¬ ([0x00, 0xED, 0xED, 0x00] <+: page.drop j)) ∨
        (k = page.length ∧ ∀ j, j + 5 ≤ page.length →
          ¬ ([0x00, 0xED, 0xED, 0x00] <+: page.drop j))) ∧
      (page.take k).length ≤ page.length ∧
      (page.take k = page ↔ ∀ j, j + 5 ≤ page.length →
          ¬ ([0x00, 0xED, 0xED, 0x00] <+: page.drop j)) := by
  obtain ⟨k, hk, hcase⟩ := expand_false_spec page
  refine ⟨k, by rw [DecompressPage_block, hk], hcase, ?_, ?_⟩
  · rw [List.length_take]
    omega
  · rcases hcase with ⟨h5, hTk, _⟩ | ⟨hlen, hnone⟩
    · constructor
      · intro heq
        have hl := congrArg List.length heq
        rw [List.length_take] at hl
        omega
      · intro hnone
        exact absurd hTk (hnone k h5)
    · constructor
      · intro _
        exact hnone
      · intro _
        rw [hlen, List.take_length]

/-- Witness for C19: a source of ten bytes with the terminator at index 2. -/
theorem uncompressed_output_witness :
    ∃ k, DecompressPage [1, 2, 0x00, 0xED, 0xED, 0x00, 7, 8, 9, 10] 10 false
        = some ([1, 2, 0x00, 0xED, 0xED, 0x00, 7, 8, 9, 10].take k) ∧
      k = 2 := by
  obtain ⟨k, hk, hcase, _, _⟩ :=
    uncompressed_output [1, 2, 0x00, 0xED, 0xED, 0x00, 7, 8, 9, 10] (by decide)
  refine ⟨k, hk, ?_⟩
  have hd : DecompressPage [1, 2, 0x00, 0xED, 0xED, 0x00, 7, 8, 9, 10] 10 false
      = some [1, 2] := by decide
  have hl : k ≤ 10 := by
    rcases hcase with ⟨h5, _, _⟩ | ⟨hlen, _⟩
    · simp only [List.length_cons, List.length_nil] at h5
      omega
    · simp only [List.length_cons, List.length_nil] at hlen
      omega
  have hk' : DecompressPage [1, 2, 0x00, 0xED, 0xED, 0x00, 7, 8, 9, 10] 10 false
      = some ([1, 2, 0x00, 0xED, 0xED, 0x00, 7, 8, 9, 10].take k) := hk
  rw [hd] at hk'
  injection hk' with hk'
  have hlen := congrArg List.length hk'
  rw [List.length_take] at hlen
  simp only [List.length_cons, List.length_nil] at hlen
  omega

/-! ## C20: reads of the source -/

/-- C20: for a source of exactly `pageLength` bytes (at most 65535), in
either mode and with any content, `DecompressPage` returns a result: no read
of the source falls outside it, also when `pageLength < 4`; and bytes that
stand behind the block have no effect on the result. -/
theorem reads_in_bounds (page : List Nat) (isCompressed : Bool)
    (_hmax : page.length ≤ 65535) :
    (∃ out, DecompressPage page page.length isCompressed = some out) ∧
    (∀ behind : List Nat,
      DecompressPage (page ++ behind) page.length isCompressed
        = DecompressPage page page.length isCompressed) ∧
    (∀ i out, arrivesAt page page.length isCompressed i out → i < page.length) := by
  refine ⟨⟨_, DecompressPage_block page isCompressed⟩, ?_, ?_⟩
  · intro behind
    rw [DecompressPage_block,
      DecompressPage_eq_expand (page ++ behind) page.length isCompressed
        (by rw [List.length_append]; omega),
      List.take_left']
    rfl
  · intro i out h
    exact (arrivesAt_spec page page.length isCompressed (le_refl _) i out h).1

/-- Witness for C20: a source of three bytes that begins like an escape. -/
theorem reads_in_bounds_witness :
    (∃ out, DecompressPage [0xED, 0xED, 5] 3 true = some out) ∧
    (∀ behind : List Nat,
      DecompressPage ([0xED, 0xED, 5] ++ behind) 3 true
        = DecompressPage [0xED, 0xED, 5] 3 true) :=
  ⟨(reads_in_bounds [0xED, 0xED, 5] true (by decide)).1,
   (reads_in_bounds [0xED, 0xED, 5] true (by decide)).2.1⟩

end Z80Snapshot
